import Mathlib

/-!
Shallow embedding of the irrelevance-erasure pass of
`src/library/compiler/erase_irrelevant.cpp` (class `erase_irrelevant_fn`).

The expression algebra, the environment facade, and the generic bottom-up
traversal driver (`compiler_step_visitor`, `kernel/instantiate`,
`library/normalize`) are external collaborators that are not part of the
shown sources; following the specification they are modelled here as:
  * a first-order term type `Expr` with de Bruijn bound variables (`bvar`)
    and local constants (`fvar`) — the C++ `var` / `local` node kinds;
  * an `Environment` record of read-only query functions;
  * explicit, executable `instantiate` / abstraction / beta-reduction
    operations on `Expr`.
Everything in the namespace `Erase` below that carries a C++ name in its
doc comment is a direct transcription of the corresponding function of
`erase_irrelevant.cpp`.
-/

namespace Erase

/-- Hierarchical names, as in the C++ `name` type (`vm_name.cpp` exposes the
same structure: anonymous, string-suffixed, numeral-suffixed). -/
inductive Name where
  | anonymous : Name
  | str : Name → String → Name
  | num : Name → Nat → Name
deriving DecidableEq, Repr

/-- The parent of a hierarchical name (`name::get_prefix`). -/
def Name.parent : Name → Name
  | .anonymous => .anonymous
  | .str p _ => p
  | .num p _ => p

/-- Universe levels. Only their presence or absence on a constant matters to
the erasure pass, which never inspects them. -/
inductive Level where
  | zero : Level
  | succ : Level → Level
  | param : String → Level
deriving DecidableEq, Repr

/-- Payload of the opaque-extension ("macro") node kind.  Modelled from the
spec: the open-ended macro payload generalizes to the closed set
{irrelevance-marker, recursive-function-reference, other}; only those two
productive payload cases are inspected by the rewrite
(`is_marked_as_comp_irrelevant`, `is_rec_fn_macro` / `get_rec_fn_name`). -/
inductive MacK where
  | markedIrrel : MacK
  | recFn : Name → MacK
  | other : Nat → MacK
deriving DecidableEq, Repr

/-- The term algebra (C++ `expr`).  `bvar` is a bound (de Bruijn) variable,
`fvar` a local constant; `value` is a value-literal leaf, `mvar` a
metavariable leaf. -/
inductive Expr where
  | bvar : Nat → Expr
  | fvar : Nat → Expr
  | const : Name → List Level → Expr
  | sort : Level → Expr
  | pi : String → Expr → Expr → Expr
  | lam : String → Expr → Expr → Expr
  | app : Expr → Expr → Expr
  | letE : String → Expr → Expr → Expr → Expr
  | mac : MacK → Expr
  | mvar : Nat → Expr
  | value : Nat → Expr
deriving DecidableEq, Repr

/-- Outcomes of the rewrite that are not result terms: the two fatal
construction errors thrown by the pass, the `lean_assert` invariant
violations (modelled as explicit failures), and fuel exhaustion of the
embedding (the C++ recursion has no fuel; `outOfFuel` only marks that the
chosen bound was too small, never a behaviour of the source). -/
inductive Err where
  | outOfFuel : Err
  | minorNotLambda : Err
  | ctorsExpected : Err
  | brokenInvariant : Err
deriving DecidableEq, Repr

def falseName : Name := .str .anonymous ("false")

def eqName : Name := .str .anonymous ("eq")

def eqRecName : Name := .str eqName ("rec")

def subtypeName : Name := .str .anonymous ("subtype")

def subtypeRecName : Name := .str subtypeName ("rec")

def subtypeTagName : Name := .str subtypeName ("tag")

def subtypeEltOfName : Name := .str subtypeName ("elt_of")

/-- The reserved neutral marker `_neutral_` (`g_neutral_expr`). -/
def neutralExpr : Expr := .const (.str .anonymous ("_neutral_")) []

/-- The reserved unreachable marker `_unreachable_` (`g_unreachable_expr`). -/
def unreachableExpr : Expr := .const (.str .anonymous ("_unreachable_")) []

/-- Signature of one inductive family as answered by the environment:
parameter count, index count, and the ordered constructor names
(`get_intro_rule_names`).  The minor-premise count of the family equals the
number of constructors (one minor premise per constructor). -/
structure InductiveInfo where
  nparams : Nat
  nindices : Nat
  cnames : List Name
deriving DecidableEq

/-- The read-only environment facade plus the relevance-classifier oracle.
Modelled from the spec: the global inductive signature table, constructor
arities, constructor-head detection, the recursive-datatype test, and the
purely advisory irrelevance classifier `is_comp_irrelevant`. -/
structure Environment where
  inductives : Name → Option InductiveInfo
  ctorArity : Name → Nat
  isCtor : Name → Bool
  isRecDT : Name → Bool
  irrel : Expr → Bool

/-- Lift the free de Bruijn variables of an expression that are ≥ `k` by
`d`.  Modelled from the spec: part of the term algebra's substitution. -/
def liftE (d : Nat) : Expr → Nat → Expr
  | .bvar i, k => if i < k then .bvar i else .bvar (i + d)
  | .app f a, k => .app (liftE d f k) (liftE d a k)
  | .lam nm t b, k => .lam nm (liftE d t k) (liftE d b (k + 1))
  | .pi nm t b, k => .pi nm (liftE d t k) (liftE d b (k + 1))
  | .letE nm t v b, k => .letE nm (liftE d t k) (liftE d v k) (liftE d b (k + 1))
  | e, _ => e

/-- Substitute the de Bruijn variable `k` by `v` (capture-avoiding).
Modelled from the spec: the term algebra's substitution. -/
def instAux (v : Expr) : Expr → Nat → Expr
  | .bvar i, k => if i = k then liftE k v 0 else if k < i then .bvar (i - 1) else .bvar i
  | .app f a, k => .app (instAux v f k) (instAux v a k)
  | .lam nm t b, k => .lam nm (instAux v t k) (instAux v b (k + 1))
  | .pi nm t b, k => .pi nm (instAux v t k) (instAux v b (k + 1))
  | .letE nm t vl b, k => .letE nm (instAux v t k) (instAux v vl k) (instAux v b (k + 1))
  | e, _ => e

/-- Plug `v` for the binder variable of a body `b` (`instantiate(b, v)` of
`kernel/instantiate`). -/
def instE (b v : Expr) : Expr := instAux v b 0

/-- Replace the local constant `id` by the bound variable pointing to a new
enclosing binder (`abstract`, used by `tmp_locals::mk_lambda`). -/
def abstractLoc (id : Nat) : Expr → Nat → Expr
  | .fvar j, k => if j = id then .bvar k else .fvar j
  | .app f a, k => .app (abstractLoc id f k) (abstractLoc id a k)
  | .lam nm t b, k => .lam nm (abstractLoc id t k) (abstractLoc id b (k + 1))
  | .pi nm t b, k => .pi nm (abstractLoc id t k) (abstractLoc id b (k + 1))
  | .letE nm t v b, k => .letE nm (abstractLoc id t k) (abstractLoc id v k) (abstractLoc id b (k + 1))
  | e, _ => e

/-- An upper bound on the local-constant identifiers occurring in a term.
The C++ obtains fresh locals from a global name generator; the model makes
a local fresh by choosing its identifier above everything in scope. -/
def freshLoc : Expr → Nat
  | .fvar j => j + 1
  | .app f a => max (freshLoc f) (freshLoc a)
  | .lam _ t b => max (freshLoc t) (freshLoc b)
  | .pi _ t b => max (freshLoc t) (freshLoc b)
  | .letE _ t v b => max (freshLoc t) (max (freshLoc v) (freshLoc b))
  | _ => 0

def freshLocs : List Expr → Nat
  | [] => 0
  | e :: es => max (freshLoc e) (freshLocs es)

/-- Decompose an application spine into head and argument list
(`get_app_args`). -/
def getAppArgsAux : Expr → List Expr → Expr × List Expr
  | .app f a, as => getAppArgsAux f (a :: as)
  | e, as => (e, as)

def getAppFnArgs (e : Expr) : Expr × List Expr := getAppArgsAux e []

/-- Left-nested application of an argument list (`mk_app(f, args)`). -/
def mkAppList (f : Expr) (as : List Expr) : Expr := as.foldl .app f

/-- Consume the leading beta-redex spine of a head applied to arguments. -/
def betaReduceAux : Expr → List Expr → Expr
  | .lam _ _ b, a :: as => betaReduceAux (instE b a) as
  | f, as => mkAppList f as

/-- The `beta_reduce` operation of the term algebra.  Modelled from the spec: the
beta-reduction operation consumed from the term-algebra collaborator. -/
def betaReduce (e : Expr) : Expr :=
  betaReduceAux (getAppFnArgs e).1 (getAppFnArgs e).2

/-- Modelled from the spec: head-normal-form reduction (`ctx().whnf`) — "a
term reduced just enough to expose its outermost constructor/operator";
the definitional unfolding machinery of the real type context is outside
the shown sources, so head reduction is modelled by the head beta
reduction above. -/
def whnf (e : Expr) : Expr := betaReduce e

/-- Replace the declared types of a leading lambda/let chain by the neutral
marker (`erase_lambda_let_types`). -/
def eraseLLT : Expr → Expr
  | .lam nm _ b => .lam nm neutralExpr (eraseLLT b)
  | .letE nm _ v b => .letE nm neutralExpr v (eraseLLT b)
  | e => e

/-- Reading `args[i]` on the argument buffer: the `i`-th argument of an
application (defaulting to the neutral marker out of range; every access
in the model is guarded by the arity checks that the C++ asserts). -/
def argAt (args : List Expr) (i : Nat) : Expr := (args.drop i).headD neutralExpr

/-- Reapply the arguments from `start_idx` on and beta-reduce
(`add_args(e, start_idx, args)`). -/
def addArgs (e : Expr) (start : Nat) (args : List Expr) : Expr :=
  betaReduce (mkAppList e (args.drop start))

/-- Apply `n` neutral-marker dummy arguments (the erased injectivity
proofs added by `visit_no_confusion`). -/
def appNeutrals : Expr → Nat → Expr
  | e, 0 => e
  | e, n + 1 => appNeutrals (.app e neutralExpr) n

/-- Number of leading lambda binders. -/
def lambdaDepth : Expr → Nat
  | .lam _ _ b => lambdaDepth b + 1
  | _ => 0

/-- Re-abstraction (`tmp_locals::mk_lambda`) of the locals `base, base+1, …` (in
binder order, outermost first) over a body, restoring the recorded binder
names and domain types. -/
def mkLambdaLocs (base : Nat) : List (String × Expr) → Expr → Expr
  | [], body => body
  | (nm, d) :: rest, body => .lam nm d (abstractLoc base (mkLambdaLocs (base + 1) rest body) 0)

/-- The peeling loop of `visit_minors`: strip exactly `dataSz` leading
lambda binders from a minor premise, instantiating each with a fresh local
(`push_local_from_binding` + `instantiate`), recording binder names and
domains; a non-lambda met during peeling is the fatal "minor premise is
expected to be a lambda-expression" error. -/
def peelMinor (base : Nat) : Nat → Nat → Expr → Except Err (List (String × Expr) × Expr)
  | 0, _, e => pure ([], e)
  | j + 1, k, e =>
    match e with
    | .lam nm d b => do
      let (ls, r) ← peelMinor base j (k + 1) (instE b (.fvar (base + k)))
      pure ((nm, d) :: ls, r)
    | _ => .error .minorNotLambda

/-- The loop of `consume_lambdas`, bounded by the number of leading
lambdas of the input (instantiating with a local never changes that
number): peel every leading lambda, then beta-reduce the exposed body. -/
def consumeLamsAux (base : Nat) : Nat → Nat → Expr → List (String × Expr) × Expr
  | 0, _, e => ([], betaReduce e)
  | j + 1, k, e =>
    match e with
    | .lam nm d b =>
      let (ls, r) := consumeLamsAux base j (k + 1) (instE b (.fvar (base + k)))
      ((nm, d) :: ls, r)
    | _ => ([], betaReduce e)

/-- Unwrap all leading lambda abstractions with fresh locals and beta-reduce
what remains (`consume_lambdas(locals, e)`). -/
def consumeLams (base : Nat) (e : Expr) : List (String × Expr) × Expr :=
  consumeLamsAux base (lambdaDepth e) 0 e

/-- Detection (`is_constructor_app`) of whether the head of the spine is a constant naming a
constructor.  Modelled from the spec: constructor-head detection consumed
from the environment. -/
def isConstructorApp (env : Environment) (e : Expr) : Option Name :=
  match (getAppFnArgs e).1 with
  | .const n _ => if env.isCtor n then some n else none
  | _ => none

/-- Test (`is_cases_on_recursor`) for the name of the case-analysis operator of some
family known to the environment.  Modelled from the spec: the eliminator
classification predicate. -/
def isCasesOnRec (env : Environment) (n : Name) : Bool :=
  match n with
  | .str p s => s = ("cases_on") && (env.inductives p).isSome
  | _ => false

/-- Test (`inductive::is_elim_rule`) for the primitive recursor name of some
family known to the environment.  Modelled from the spec. -/
def isElimRule (env : Environment) (n : Name) : Bool :=
  match n with
  | .str p s => s = ("rec") && (env.inductives p).isSome
  | _ => false

/-- Test (`is_no_confusion`) for the no-confusion operator name of some family
known to the environment.  Modelled from the spec. -/
def isNoConfusion (env : Environment) (n : Name) : Bool :=
  match n with
  | .str p s => s = ("no_confusion") && (env.inductives p).isSome
  | _ => false

/-- The per-element visiting loop (`for i < n: a[i] =
visit(a[i])`) shared by `visit_minors`; `V` is the recursive `visit`
hook. -/
def visitList (V : Expr → Except Err Expr) : List Expr → Except Err (List Expr)
  | [] => pure []
  | x :: xs => do
    let y ← V x
    let ys ← visitList V xs
    pure (y :: ys)

/-- The per-minor body of the redistribution loop of `visit_minors`: peel
`carity − nparams` binders, visit the peeled body, apply the (already
visited) extra arguments with beta-reduction, re-abstract the peeled
binders and erase their domain types.  `lean_assert(carity >= nparams)` is
modelled as an explicit invariant failure. -/
def visitMinor1 (env : Environment) (V : Expr → Except Err Expr) (nparams : Nat)
    (args' : List Expr) (cname : Name) (minor : Expr) : Except Err Expr :=
  let carity := env.ctorArity cname
  if carity < nparams then .error .brokenInvariant
  else do
    let dataSz := carity - nparams
    let base := max (freshLoc minor) (freshLocs args')
    let (locs, body) ← peelMinor base dataSz 0 minor
    let body' ← V body
    pure (eraseLLT (mkLambdaLocs base locs (betaReduce (mkAppList body' args'))))

/-- The `for i < nminors` loop of `visit_minors` when extra arguments are
present.  Running out of constructor names while minors remain would be an
out-of-bounds read in the C++ (`cnames[i]`), modelled as an invariant
failure. -/
def visitMinorsLoop (env : Environment) (V : Expr → Except Err Expr) (nparams : Nat)
    (args' : List Expr) : List Expr → List Name → Except Err (List Expr)
  | [], _ => pure []
  | m :: ms, c :: cs => do
    let m' ← visitMinor1 env V nparams args' c m
    let ms' ← visitMinorsLoop env V nparams args' ms cs
    pure (m' :: ms')
  | _ :: _, [] => .error .brokenInvariant

/-- The whole of `visit_minors(nparams, nminors, minors, cnames, nargs, args)`: with
extra arguments present, first visit all extra arguments, then
redistribute them over the minors; with no extra arguments, visit each
minor in place. -/
def visitMinors (env : Environment) (V : Expr → Except Err Expr) (nparams : Nat)
    (minors : List Expr) (cnames : List Name) (args : List Expr) : Except Err (List Expr) :=
  if 0 < args.length then do
    let args' ← visitList V args
    visitMinorsLoop env V nparams args' minors cnames
  else
    visitList V minors

/-- The specializer `visit_cases_on(fn, args)`: keep only the (visited) major and minor
premises; the empty family collapses to the unreachable marker. -/
def visitCasesCore (env : Environment) (V : Expr → Except Err Expr)
    (fn : Expr) (args : List Expr) : Except Err Expr :=
  match fn with
  | .const recName _ =>
    let iName := recName.parent
    if iName = falseName then pure unreachableExpr
    else
      match env.inductives iName with
      | none => .error .brokenInvariant
      | some info =>
        let nparams := info.nparams
        let nindices := info.nindices
        let cnames := info.cnames
        let nminors := cnames.length
        let arity := nparams + 1 + nindices + 1 + nminors
        if args.length < arity then .error .brokenInvariant
        else do
          let minors := (args.drop (nparams + 1 + nindices + 1)).take nminors
          let extraArgs := args.drop arity
          let minors' ← visitMinors env V nparams minors cnames extraArgs
          let major ← V (argAt args (nparams + 1 + nindices))
          let newFn ← V fn
          pure (mkAppList (.app newFn major) minors')
  | _ => .error .brokenInvariant

/-- The specializer `visit_rec(fn, args)`: same as `visit_cases_on` but the minors sit
right after the motive (before the indices), and the head becomes the
constant `I.cases_on` (with no universe levels) without being visited.
The `lean_assert(!is_recursive_datatype)` precondition is modelled as an
explicit invariant failure. -/
def visitRecCore (env : Environment) (V : Expr → Except Err Expr)
    (fn : Expr) (args : List Expr) : Except Err Expr :=
  match fn with
  | .const recName _ =>
    let iName := recName.parent
    if iName = falseName then pure unreachableExpr
    else if env.isRecDT iName then .error .brokenInvariant
    else
      match env.inductives iName with
      | none => .error .brokenInvariant
      | some info =>
        let nparams := info.nparams
        let nindices := info.nindices
        let cnames := info.cnames
        let nminors := cnames.length
        let arity := nparams + 1 + nminors + nindices + 1
        if args.length < arity then .error .brokenInvariant
        else do
          let newFn := Expr.const (.str iName ("cases_on")) []
          let major ← V (argAt args (nparams + 1 + nminors + nindices))
          let minors := (args.drop (nparams + 1)).take nminors
          let extraArgs := args.drop arity
          let minors' ← visitMinors env V nparams minors cnames extraArgs
          pure (mkAppList (.app newFn major) minors')
  | _ => .error .brokenInvariant

/-- The specializer `visit_eq_rec(args)`: keep only the (visited) carried value
`args[3]`; reapply the arguments from position 6 on (unvisited) with
beta-reduction. -/
def visitEqRecCore (V : Expr → Except Err Expr) (args : List Expr) : Except Err Expr :=
  if args.length < 6 then .error .brokenInvariant
  else do
    let major ← V (argAt args 3)
    pure (addArgs major 6 args)

/-- The specializer `visit_no_confusion(fn, args)`: reduce both compared subterms to head
normal form; both must be constructor applications (else the fatal
"constructors expected" error); distinct constructors collapse to the
unreachable marker; the same constructor keeps the continuation, unwrapped
through all its lambdas, visited, re-abstracted with erased domains,
applied to one neutral dummy per constructor data field, then to the
remaining arguments with beta-reduction. -/
def visitNoConfCore (env : Environment) (V : Expr → Except Err Expr)
    (fn : Expr) (args : List Expr) : Except Err Expr :=
  match fn with
  | .const ncName _ =>
    let iName := ncName.parent
    match env.inductives iName with
    | none => .error .brokenInvariant
    | some info =>
      let nparams := info.nparams
      let nindices := info.nindices
      let basicArity := nparams + nindices + 1 + 2 + 1
      if args.length < basicArity then .error .brokenInvariant
      else
        let lhs := whnf (argAt args (nparams + nindices + 1))
        let rhs := whnf (argAt args (nparams + nindices + 2))
        match isConstructorApp env lhs, isConstructorApp env rhs with
        | some lc, some rc =>
          if lc ≠ rc then pure unreachableExpr
          else if args.length < basicArity + 1 then .error .brokenInvariant
          else do
            let major := argAt args (nparams + nindices + 4)
            let base := freshLoc major
            let (locs, body) := consumeLams base major
            let body' ← V body
            let major' := eraseLLT (mkLambdaLocs base locs body')
            let cDataSz := env.ctorArity lc - nparams
            pure (addArgs (appNeutrals major' cDataSz) (nparams + nindices + 5) args)
        | _, _ => .error .ctorsExpected
  | _ => .error .brokenInvariant

/-- The specializer `visit_subtype_tag(args)`: the identity on the underlying value
`args[2]`; trailing arguments reapplied (unvisited). -/
def visitSubtypeTagCore (V : Expr → Except Err Expr) (args : List Expr) : Except Err Expr :=
  if args.length < 4 then .error .brokenInvariant
  else do
    let r ← V (argAt args 2)
    pure (addArgs r 4 args)

/-- The specializer `visit_subtype_rec(args)`: apply the (visited) minor to the (visited)
major and one neutral dummy; trailing arguments reapplied (unvisited). -/
def visitSubtypeRecCore (V : Expr → Except Err Expr) (args : List Expr) : Except Err Expr :=
  if args.length < 5 then .error .brokenInvariant
  else do
    let minor ← V (argAt args 3)
    let major ← V (argAt args 4)
    pure (addArgs (.app (.app minor major) neutralExpr) 5 args)

/-- The specializer `visit_subtype_elt_of(args)`: the identity on the underlying value
`args[2]`; trailing arguments reapplied (unvisited). -/
def visitSubtypeEltOfCore (V : Expr → Except Err Expr) (args : List Expr) : Except Err Expr :=
  if args.length < 3 then .error .brokenInvariant
  else do
    let r ← V (argAt args 2)
    pure (addArgs r 3 args)

/-- The structural rewriter `erase_irrelevant_fn::visit`, fuelled.  Sorts
and Pis erase to the neutral marker; macros follow `visit_macro`; locals
and constants consult the classifier, constants dropping their universe
levels; lambda and let visit their bodies (and value) and erase their
declared types; applications follow `visit_app`: an irrelevant
application erases to the neutral marker, a lambda-headed application is
beta-reduced and revisited, the special-cased eliminator heads dispatch
to their specializers, and otherwise (modelled from the spec) the default
traversal rewrites the function and each argument independently and
rebuilds the application.  Metavariables and value literals are left to
the default traversal, which copies them unchanged. -/
def visit (env : Environment) : Nat → Expr → Except Err Expr
  | 0, _ => .error .outOfFuel
  | fuel + 1, e =>
    match e with
    | .sort _ => pure neutralExpr
    | .pi _ _ _ => pure neutralExpr
    | .mac k =>
      if k = MacK.markedIrrel then pure neutralExpr
      else if env.irrel (.mac k) then pure neutralExpr
      else
        match k with
        | .recFn n => pure (.const n [])
        | _ => pure (.mac k)
    | .bvar i => if env.irrel (.bvar i) then pure neutralExpr else pure (.bvar i)
    | .fvar i => if env.irrel (.fvar i) then pure neutralExpr else pure (.fvar i)
    | .const n ls => if env.irrel (.const n ls) then pure neutralExpr else pure (.const n [])
    | .lam nm d b => do
      let b' ← visit env fuel b
      pure (eraseLLT (.lam nm d b'))
    | .letE nm t v b => do
      let v' ← visit env fuel v
      let b' ← visit env fuel b
      pure (eraseLLT (.letE nm t v' b'))
    | .mvar i => pure (.mvar i)
    | .value v => pure (.value v)
    | .app f a =>
      if env.irrel (.app f a) then pure neutralExpr
      else
        match (getAppFnArgs (.app f a)).1 with
        | .lam _ _ _ => visit env fuel (betaReduce (.app f a))
        | .const n _ =>
          let args := (getAppFnArgs (.app f a)).2
          if n = eqRecName then visitEqRecCore (fun x => visit env fuel x) args
          else if n = subtypeRecName then visitSubtypeRecCore (fun x => visit env fuel x) args
          else if isCasesOnRec env n then
            visitCasesCore env (fun x => visit env fuel x) (getAppFnArgs (.app f a)).1 args
          else if isElimRule env n then
            visitRecCore env (fun x => visit env fuel x) (getAppFnArgs (.app f a)).1 args
          else if isNoConfusion env n then
            visitNoConfCore env (fun x => visit env fuel x) (getAppFnArgs (.app f a)).1 args
          else if n = subtypeTagName then visitSubtypeTagCore (fun x => visit env fuel x) args
          else if n = subtypeEltOfName then visitSubtypeEltOfCore (fun x => visit env fuel x) args
          else do
            let fn' ← visit env fuel (getAppFnArgs (.app f a)).1
            let args' ← visitList (fun x => visit env fuel x) (getAppFnArgs (.app f a)).2
            pure (mkAppList fn' args')
        | _ => do
          let fn' ← visit env fuel (getAppFnArgs (.app f a)).1
          let args' ← visitList (fun x => visit env fuel x) (getAppFnArgs (.app f a)).2
          pure (mkAppList fn' args')

end Erase

namespace Erase

/-! ### Basic lemmas about the `Except` plumbing and the term algebra -/

@[simp]
theorem ok_bind {α β : Type} (a : α) (f : α → Except Err β) :
    (Except.ok a : Except Err α) >>= f = f a := rfl

@[simp]
theorem error_bind {α β : Type} (e : Err) (f : α → Except Err β) :
    (Except.error e : Except Err α) >>= f = .error e := rfl

@[simp]
theorem pure_eq_ok {α : Type} (a : α) : (pure a : Except Err α) = .ok a := rfl

theorem ebind_eq_ok {α β : Type} {x : Except Err α} {f : α → Except Err β} {b : β} :
    x >>= f = .ok b ↔ ∃ a, x = .ok a ∧ f a = .ok b := by
  cases x <;> simp

/-- Whether the outermost node is an application. -/
def isAppE : Expr → Bool
  | .app _ _ => true
  | _ => false

theorem getAppArgsAux_mkAppList (as : List Expr) :
    ∀ (f : Expr) (acc : List Expr),
      getAppArgsAux (mkAppList f as) acc = getAppArgsAux f (as ++ acc) := by
  induction as with
  | nil => intro f acc; rfl
  | cons a as ih =>
    intro f acc
    show getAppArgsAux (mkAppList (.app f a) as) acc = _
    rw [ih]
    rfl

theorem getAppArgsAux_nonApp {f : Expr} (h : isAppE f = false) (acc : List Expr) :
    getAppArgsAux f acc = (f, acc) := by
  cases f <;> simp_all [isAppE, getAppArgsAux]

theorem getAppFnArgs_mkAppList {f : Expr} (h : isAppE f = false) (as : List Expr) :
    getAppFnArgs (mkAppList f as) = (f, as) := by
  rw [getAppFnArgs, getAppArgsAux_mkAppList, getAppArgsAux_nonApp h, List.append_nil]

theorem mkAppList_getAppArgsAux : ∀ (e : Expr) (acc : List Expr),
    mkAppList (getAppArgsAux e acc).1 (getAppArgsAux e acc).2 = mkAppList e acc := by
  intro e
  induction e with
  | app f a ihf _ =>
    intro acc
    show mkAppList (getAppArgsAux f (a :: acc)).1 (getAppArgsAux f (a :: acc)).2 = _
    rw [ihf]
    rfl
  | _ => intro acc; rfl

theorem mkAppList_getAppFnArgs (e : Expr) :
    mkAppList (getAppFnArgs e).1 (getAppFnArgs e).2 = e :=
  mkAppList_getAppArgsAux e []

theorem isAppE_mkAppList {f : Expr} {as : List Expr} (h : as ≠ []) :
    isAppE (mkAppList f as) = true := by
  induction as generalizing f with
  | nil => exact absurd rfl h
  | cons a as ih =>
    show isAppE (mkAppList (.app f a) as) = true
    cases as with
    | nil => rfl
    | cons b bs => exact ih (by simp)


/-! ### Dispatch lemmas: how `visit` reaches each specializer -/

theorem visit_app_const (env : Environment) (fuel : Nat) {e : Expr} {n : Name} {ls : List Level}
    (happ : isAppE e = true)
    (hfn : (getAppFnArgs e).1 = .const n ls)
    (hirr : env.irrel e = false) :
    visit env (fuel + 1) e =
      (if n = eqRecName then visitEqRecCore (fun x => visit env fuel x) (getAppFnArgs e).2
       else if n = subtypeRecName then visitSubtypeRecCore (fun x => visit env fuel x) (getAppFnArgs e).2
       else if isCasesOnRec env n then
         visitCasesCore env (fun x => visit env fuel x) (.const n ls) (getAppFnArgs e).2
       else if isElimRule env n then
         visitRecCore env (fun x => visit env fuel x) (.const n ls) (getAppFnArgs e).2
       else if isNoConfusion env n then
         visitNoConfCore env (fun x => visit env fuel x) (.const n ls) (getAppFnArgs e).2
       else if n = subtypeTagName then visitSubtypeTagCore (fun x => visit env fuel x) (getAppFnArgs e).2
       else if n = subtypeEltOfName then visitSubtypeEltOfCore (fun x => visit env fuel x) (getAppFnArgs e).2
       else do
         let fn' ← visit env fuel (getAppFnArgs e).1
         let args' ← visitList (fun x => visit env fuel x) (getAppFnArgs e).2
         pure (mkAppList fn' args')) := by
  cases e with
  | app f a =>
    show (if env.irrel (.app f a) then pure neutralExpr else _) = _
    rw [if_neg (by simp [hirr])]
    rw [show (getAppFnArgs (Expr.app f a)).1 = .const n ls from hfn]
  | bvar i => simp [isAppE] at happ
  | fvar i => simp [isAppE] at happ
  | const n' ls' => simp [isAppE] at happ
  | sort u => simp [isAppE] at happ
  | pi nm d b => simp [isAppE] at happ
  | lam nm d b => simp [isAppE] at happ
  | letE nm t v b => simp [isAppE] at happ
  | mac k => simp [isAppE] at happ
  | mvar i => simp [isAppE] at happ
  | value v => simp [isAppE] at happ

theorem visit_dispatch_casesOn (env : Environment) (fuel : Nat) {I : Name} {ls : List Level}
    {args : List Expr}
    (hne : args ≠ [])
    (hInd : (env.inductives I).isSome = true)
    (hirr : env.irrel (mkAppList (.const (.str I ("cases_on")) ls) args) = false) :
    visit env (fuel + 1) (mkAppList (.const (.str I ("cases_on")) ls) args) =
      visitCasesCore env (fun x => visit env fuel x) (.const (.str I ("cases_on")) ls) args := by
  have hga := getAppFnArgs_mkAppList (f := .const (.str I ("cases_on")) ls) rfl args
  rw [visit_app_const env fuel (isAppE_mkAppList hne) (by rw [hga]) hirr, hga]
  rw [if_neg (by simp [eqRecName, eqName])]
  rw [if_neg (by simp [subtypeRecName, subtypeName])]
  rw [if_pos (by simp [isCasesOnRec, hInd])]

theorem visit_dispatch_rec (env : Environment) (fuel : Nat) {I : Name} {ls : List Level}
    {args : List Expr}
    (hne : args ≠ [])
    (hInd : (env.inductives I).isSome = true)
    (hEq : I ≠ eqName)
    (hSub : I ≠ subtypeName)
    (hirr : env.irrel (mkAppList (.const (.str I ("rec")) ls) args) = false) :
    visit env (fuel + 1) (mkAppList (.const (.str I ("rec")) ls) args) =
      visitRecCore env (fun x => visit env fuel x) (.const (.str I ("rec")) ls) args := by
  have hga := getAppFnArgs_mkAppList (f := .const (.str I ("rec")) ls) rfl args
  rw [visit_app_const env fuel (isAppE_mkAppList hne) (by rw [hga]) hirr, hga]
  rw [if_neg (by simp [eqRecName]; intro h; exact absurd h hEq)]
  rw [if_neg (by simp [subtypeRecName]; intro h; exact absurd h hSub)]
  rw [if_neg (by simp [isCasesOnRec])]
  rw [if_pos (by simp [isElimRule, hInd])]

theorem visit_dispatch_noConfusion (env : Environment) (fuel : Nat) {I : Name} {ls : List Level}
    {args : List Expr}
    (hne : args ≠ [])
    (hInd : (env.inductives I).isSome = true)
    (hirr : env.irrel (mkAppList (.const (.str I ("no_confusion")) ls) args) = false) :
    visit env (fuel + 1) (mkAppList (.const (.str I ("no_confusion")) ls) args) =
      visitNoConfCore env (fun x => visit env fuel x) (.const (.str I ("no_confusion")) ls) args := by
  have hga := getAppFnArgs_mkAppList (f := .const (.str I ("no_confusion")) ls) rfl args
  rw [visit_app_const env fuel (isAppE_mkAppList hne) (by rw [hga]) hirr, hga]
  rw [if_neg (by simp [eqRecName, eqName])]
  rw [if_neg (by simp [subtypeRecName, subtypeName])]
  rw [if_neg (by simp [isCasesOnRec])]
  rw [if_neg (by simp [isElimRule])]
  rw [if_pos (by simp [isNoConfusion, hInd])]

theorem visit_dispatch_eqRec (env : Environment) (fuel : Nat) {ls : List Level}
    {args : List Expr}
    (hne : args ≠ [])
    (hirr : env.irrel (mkAppList (.const eqRecName ls) args) = false) :
    visit env (fuel + 1) (mkAppList (.const eqRecName ls) args) =
      visitEqRecCore (fun x => visit env fuel x) args := by
  have hga := getAppFnArgs_mkAppList (f := .const eqRecName ls) rfl args
  rw [visit_app_const env fuel (isAppE_mkAppList hne) (by rw [hga]) hirr, hga]
  rw [if_pos rfl]

/-! ### Claim theorems -/

/-- C3: For every application of the case-analysis operator or the
primitive recursor of the empty (`false`) family — whatever parameter,
motive, index, major, minor, and extra arguments are supplied (and
however the heads are universe-instantiated) — the rewriter returns
exactly the unreachable marker.  The application must be relevant (an
application the classifier marks irrelevant erases to the neutral marker
before any head dispatch) and the environment must know the family. -/
theorem C3_false_elim_unreachable (env : Environment) (fuel : Nat)
    (lsC lsR : List Level) (argsC argsR : List Expr)
    (hC : argsC ≠ []) (hR : argsR ≠ [])
    (hInd : (env.inductives falseName).isSome = true)
    (hirrC : env.irrel (mkAppList (.const (.str falseName ("cases_on")) lsC) argsC) = false)
    (hirrR : env.irrel (mkAppList (.const (.str falseName ("rec")) lsR) argsR) = false) :
    visit env (fuel + 1) (mkAppList (.const (.str falseName ("cases_on")) lsC) argsC)
      = .ok unreachableExpr ∧
    visit env (fuel + 1) (mkAppList (.const (.str falseName ("rec")) lsR) argsR)
      = .ok unreachableExpr := by
  constructor
  · rw [visit_dispatch_casesOn env fuel hC hInd hirrC]
    simp [visitCasesCore, Name.parent]
  · rw [visit_dispatch_rec env fuel hR hInd (by decide) (by decide) hirrR]
    simp [visitRecCore, Name.parent]

/-- Witness environment: the empty family `false`, and a two-constructor
family `T` with zero parameters, zero indices and constructor arities
2 and 3 (the layout of the spec's redistribution example). -/
def tName : Name := .str .anonymous ("T")

def c1Name : Name := .str tName ("c1")

def c2Name : Name := .str tName ("c2")

def envT : Environment where
  inductives := fun n =>
    if n = falseName then some ⟨0, 0, []⟩
    else if n = tName then some ⟨0, 0, [c1Name, c2Name]⟩
    else none
  ctorArity := fun n => if n = c1Name then 2 else if n = c2Name then 3 else 0
  isCtor := fun n => n = c1Name || n = c2Name
  isRecDT := fun _ => false
  irrel := fun _ => false

theorem C3_false_elim_unreachable_witness :
    visit envT 1 (mkAppList (.const (.str falseName ("cases_on")) []) [.value 0])
      = .ok unreachableExpr ∧
    visit envT 1 (mkAppList (.const (.str falseName ("rec")) []) [.value 0])
      = .ok unreachableExpr :=
  C3_false_elim_unreachable envT 0 [] [] [.value 0] [.value 0]
    (by decide) (by decide) (by decide) (by decide) (by decide)

/-- C5: A no-confusion application whose two compared subterms
head-normalize to applications of two *distinct* constructors rewrites to
exactly the unreachable marker. -/
theorem C5_noConfusion_distinct_unreachable (env : Environment) (fuel : Nat)
    {I : Name} {ls : List Level} {args : List Expr} (info : InductiveInfo) (c1 c2 : Name)
    (hne : args ≠ [])
    (hInd : env.inductives I = some info)
    (hirr : env.irrel (mkAppList (.const (.str I ("no_confusion")) ls) args) = false)
    (hlen : info.nparams + info.nindices + 1 + 2 + 1 ≤ args.length)
    (hl : isConstructorApp env (whnf (argAt args (info.nparams + info.nindices + 1))) = some c1)
    (hr : isConstructorApp env (whnf (argAt args (info.nparams + info.nindices + 2))) = some c2)
    (hcc : c1 ≠ c2) :
    visit env (fuel + 1) (mkAppList (.const (.str I ("no_confusion")) ls) args)
      = .ok unreachableExpr := by
  rw [visit_dispatch_noConfusion env fuel hne (by rw [hInd]; rfl) hirr]
  simp only [visitNoConfCore, Name.parent, hInd]
  rw [if_neg (by omega)]
  rw [hl, hr]
  simp [hcc]

theorem C5_noConfusion_distinct_unreachable_witness :
    visit envT 1 (mkAppList (.const (.str tName ("no_confusion")) [])
      [.value 0, mkAppList (.const c1Name []) [.value 1, .value 2],
       mkAppList (.const c2Name []) [.value 1, .value 2, .value 3], .value 4, .value 5])
      = .ok unreachableExpr :=
  C5_noConfusion_distinct_unreachable envT 0 ⟨0, 0, [c1Name, c2Name]⟩ c1Name c2Name
    (by decide) (by decide) (by decide) (by decide) (by decide) (by decide) (by decide)

/-- C4: A no-confusion application reduces its two compared argument
subterms to head-normal form and raises the fatal "constructors expected"
error if and only if at least one of them is not an application of some
constructor; when it raises, no result term is produced (the outcome is
an error, not a term).  `V` is the recursive-rewrite hook, which by
hypothesis does not itself signal "constructors expected" (that error can
otherwise propagate out of the continuation's own subterms). -/
theorem C4_noConfusion_ctorsExpected_iff (env : Environment) (V : Expr → Except Err Expr)
    {I : Name} {ls : List Level} {args : List Expr} (info : InductiveInfo)
    (hInd : env.inductives I = some info)
    (hlen : info.nparams + info.nindices + 1 + 2 + 1 ≤ args.length)
    (hV : ∀ x, V x ≠ .error .ctorsExpected) :
    visitNoConfCore env V (.const (.str I ("no_confusion")) ls) args = .error .ctorsExpected
      ↔ (isConstructorApp env (whnf (argAt args (info.nparams + info.nindices + 1))) = none
        ∨ isConstructorApp env (whnf (argAt args (info.nparams + info.nindices + 2))) = none) := by
  simp only [visitNoConfCore, Name.parent, hInd]
  rw [if_neg (by omega)]
  rcases hL : isConstructorApp env (whnf (argAt args (info.nparams + info.nindices + 1))) with _ | c1
  · simp
  · rcases hR : isConstructorApp env (whnf (argAt args (info.nparams + info.nindices + 2))) with _ | c2
    · simp
    · simp only [reduceCtorEq, or_self, iff_false]
      by_cases hcc : c1 = c2
      · subst hcc
        simp only [ne_eq, not_true_eq_false, if_false]
        split
        · simp
        · rcases hb : V ((consumeLams (freshLoc (argAt args (info.nparams + info.nindices + 4)))
              (argAt args (info.nparams + info.nindices + 4))).2) with e | b
          · simp only [hb, error_bind, Except.error.injEq]
            intro h
            exact hV _ (h ▸ hb)
          · simp [hb]
      · simp [if_pos hcc]

theorem C4_noConfusion_ctorsExpected_iff_witness :
    visitNoConfCore envT (fun _ => .ok neutralExpr) (.const (.str tName ("no_confusion")) [])
      [.value 0, .value 1, mkAppList (.const c2Name []) [.value 2], .value 4, .value 5]
      = .error .ctorsExpected :=
  (C4_noConfusion_ctorsExpected_iff envT (fun _ => .ok neutralExpr)
    ⟨0, 0, [c1Name, c2Name]⟩
    (by decide) (by decide) (fun x => by simp)).mpr (by decide)

/-- Does the term start with (at least) `n` lambda binders whose domain
annotations are all the neutral marker? -/
def leadingNeutralLams : Nat → Expr → Bool
  | 0, _ => true
  | n + 1, e =>
    match e with
    | .lam _ d b => d = neutralExpr && leadingNeutralLams n b
    | _ => false

theorem leadingNeutralLams_eraseLLT_abstractLoc :
    ∀ (n : Nat) (X : Expr) (id k : Nat),
      leadingNeutralLams n (eraseLLT (abstractLoc id X k))
        = leadingNeutralLams n (eraseLLT X) := by
  intro n
  induction n with
  | zero => intro X id k; rfl
  | succ n ih =>
    intro X id k
    cases X with
    | lam nm d b => simp [abstractLoc, eraseLLT, leadingNeutralLams, ih]
    | letE nm t v b => simp [abstractLoc, eraseLLT, leadingNeutralLams]
    | fvar j =>
      by_cases h : j = id <;> simp [abstractLoc, eraseLLT, leadingNeutralLams, h]
    | _ => rfl

theorem leadingNeutralLams_eraseLLT_mkLambdaLocs :
    ∀ (ls : List (String × Expr)) (base : Nat) (body : Expr),
      leadingNeutralLams ls.length (eraseLLT (mkLambdaLocs base ls body)) = true := by
  intro ls
  induction ls with
  | nil => intro base body; rfl
  | cons p rest ih =>
    intro base body
    obtain ⟨nm, d⟩ := p
    simp [mkLambdaLocs, eraseLLT, leadingNeutralLams,
      leadingNeutralLams_eraseLLT_abstractLoc, ih]

theorem peelMinor_length {base : Nat} :
    ∀ (n k : Nat) (e : Expr) (locs : List (String × Expr)) (body : Expr),
      peelMinor base n k e = .ok (locs, body) → locs.length = n := by
  intro n
  induction n with
  | zero =>
    intro k e locs body h
    simp [peelMinor] at h
    simp [h.1.symm]
  | succ n ih =>
    intro k e locs body h
    cases e with
    | lam nm d b =>
      simp only [peelMinor] at h
      rcases hp : peelMinor base n (k + 1) (instE b (.fvar (base + k))) with e' | ⟨ls', r'⟩
      · rw [hp] at h; simp at h
      · rw [hp] at h
        simp only [ok_bind, pure_eq_ok, Except.ok.injEq, Prod.mk.injEq] at h
        obtain ⟨h1, _⟩ := h
        subst h1
        simp [ih _ _ _ _ hp]
    | _ => simp [peelMinor] at h

/-- C6: A no-confusion application whose two compared subterms
head-normalize to applications of the *same* constructor `c` rewrites to:
the continuation argument (at position `nparams + nindices + 4`),
unwrapped through all of its leading lambda binders, rewritten by the
recursive hook `V`, re-abstracted over the peeled binders (whose domain
annotations all become the neutral marker — second conjunct), applied to
exactly `arity(c) − nparams` neutral-marker placeholders, and finally
applied to the remaining trailing arguments with beta-reduction. -/
theorem C6_noConfusion_same_constructor (env : Environment) (V : Expr → Except Err Expr)
    {I : Name} {ls : List Level} {args : List Expr} (info : InductiveInfo) {c : Name}
    (hInd : env.inductives I = some info)
    (hlen : info.nparams + info.nindices + 1 + 2 + 1 + 1 ≤ args.length)
    (hl : isConstructorApp env (whnf (argAt args (info.nparams + info.nindices + 1))) = some c)
    (hr : isConstructorApp env (whnf (argAt args (info.nparams + info.nindices + 2))) = some c) :
    visitNoConfCore env V (.const (.str I ("no_confusion")) ls) args =
      (do
        let body' ← V (consumeLams (freshLoc (argAt args (info.nparams + info.nindices + 4)))
          (argAt args (info.nparams + info.nindices + 4))).2
        pure (addArgs
          (appNeutrals
            (eraseLLT (mkLambdaLocs (freshLoc (argAt args (info.nparams + info.nindices + 4)))
              (consumeLams (freshLoc (argAt args (info.nparams + info.nindices + 4)))
                (argAt args (info.nparams + info.nindices + 4))).1 body'))
            (env.ctorArity c - info.nparams))
          (info.nparams + info.nindices + 5) args)) ∧
    ∀ body' : Expr,
      leadingNeutralLams
        (consumeLams (freshLoc (argAt args (info.nparams + info.nindices + 4)))
          (argAt args (info.nparams + info.nindices + 4))).1.length
        (eraseLLT (mkLambdaLocs (freshLoc (argAt args (info.nparams + info.nindices + 4)))
          (consumeLams (freshLoc (argAt args (info.nparams + info.nindices + 4)))
            (argAt args (info.nparams + info.nindices + 4))).1 body')) = true := by
  constructor
  · simp only [visitNoConfCore, Name.parent, hInd]
    rw [if_neg (by omega)]
    rw [hl, hr]
    simp only [ne_eq, not_true_eq_false, if_false]
    rw [if_neg (by omega)]
  · intro body'
    exact leadingNeutralLams_eraseLLT_mkLambdaLocs _ _ _

theorem C6_noConfusion_same_constructor_witness :
    visitNoConfCore envT (fun x => .ok x) (.const (.str tName ("no_confusion")) [])
      [.value 0, mkAppList (.const c1Name []) [.value 1, .value 2],
       mkAppList (.const c1Name []) [.value 3, .value 4], .value 5, .value 7]
      = .ok (.app (.app (.value 7) neutralExpr) neutralExpr) :=
  ((C6_noConfusion_same_constructor envT (fun x => .ok x)
    ⟨0, 0, [c1Name, c2Name]⟩ (c := c1Name)
    (by decide) (by decide) (by decide) (by decide)).1).trans (by rfl)

theorem visitList_error {V : Expr → Except Err Expr} :
    ∀ {l : List Expr} {e : Err}, visitList V l = .error e → ∃ x ∈ l, V x = .error e := by
  intro l
  induction l with
  | nil => intro e h; simp [visitList] at h
  | cons x xs ih =>
    intro e h
    simp only [visitList] at h
    rcases hx : V x with ex | y
    · rw [hx] at h
      simp only [error_bind, Except.error.injEq] at h
      exact ⟨x, by simp, by rw [hx, h]⟩
    · rw [hx] at h
      simp only [ok_bind] at h
      rcases hxs : visitList V xs with exs | ys
      · rw [hxs] at h
        simp only [error_bind, Except.error.injEq] at h
        obtain ⟨z, hz, hze⟩ := ih (by rw [hxs, h])
        exact ⟨z, by simp [hz], hze⟩
      · rw [hxs] at h
        simp at h

/-- C10: When a case-analysis or recursor application carries exactly
the computed arity (no extra trailing arguments), every minor premise is
rewritten in place (`visitList V` over the minors slice) with no
lambda-peeling and no re-abstraction; consequently, if the recursive hook
`V` never signals the fatal "minor premise is expected to be a
lambda-expression" error, neither application's rewrite can produce that
error. -/
theorem C10_exact_arity_minors_in_place (env : Environment) (V : Expr → Except Err Expr)
    {I : Name} {ls : List Level} {argsC : List Expr} (argsR : List Expr) (info : InductiveInfo)
    (hInd : env.inductives I = some info)
    (hFalse : I ≠ falseName)
    (hRec : env.isRecDT I = false)
    (hlenC : argsC.length = info.nparams + 1 + info.nindices + 1 + info.cnames.length)
    (hlenR : argsR.length = info.nparams + 1 + info.cnames.length + info.nindices + 1)
    (hV : ∀ x, V x ≠ .error .minorNotLambda) :
    (visitCasesCore env V (.const (.str I ("cases_on")) ls) argsC =
      (do
        let minors' ← visitList V
          ((argsC.drop (info.nparams + 1 + info.nindices + 1)).take info.cnames.length)
        let major ← V (argAt argsC (info.nparams + 1 + info.nindices))
        let newFn ← V (.const (.str I ("cases_on")) ls)
        pure (mkAppList (.app newFn major) minors'))) ∧
    (visitRecCore env V (.const (.str I ("rec")) ls) argsR =
      (do
        let major ← V (argAt argsR (info.nparams + 1 + info.cnames.length + info.nindices))
        let minors' ← visitList V ((argsR.drop (info.nparams + 1)).take info.cnames.length)
        pure (mkAppList (.app (Expr.const (.str I ("cases_on")) []) major) minors'))) ∧
    visitCasesCore env V (.const (.str I ("cases_on")) ls) argsC ≠ .error .minorNotLambda ∧
    visitRecCore env V (.const (.str I ("rec")) ls) argsR ≠ .error .minorNotLambda := by
  have hdropC : argsC.drop (info.nparams + 1 + info.nindices + 1 + info.cnames.length) = [] :=
    List.drop_eq_nil_of_le (by omega)
  have hdropR : argsR.drop (info.nparams + 1 + info.cnames.length + info.nindices + 1) = [] :=
    List.drop_eq_nil_of_le (by omega)
  have hC : visitCasesCore env V (.const (.str I ("cases_on")) ls) argsC =
      (do
        let minors' ← visitList V
          ((argsC.drop (info.nparams + 1 + info.nindices + 1)).take info.cnames.length)
        let major ← V (argAt argsC (info.nparams + 1 + info.nindices))
        let newFn ← V (.const (.str I ("cases_on")) ls)
        pure (mkAppList (.app newFn major) minors')) := by
    simp only [visitCasesCore, Name.parent, hInd]
    rw [if_neg hFalse]
    rw [if_neg (by omega)]
    rw [hdropC]
    simp [visitMinors]
  have hR : visitRecCore env V (.const (.str I ("rec")) ls) argsR =
      (do
        let major ← V (argAt argsR (info.nparams + 1 + info.cnames.length + info.nindices))
        let minors' ← visitList V ((argsR.drop (info.nparams + 1)).take info.cnames.length)
        pure (mkAppList (.app (Expr.const (.str I ("cases_on")) []) major) minors')) := by
    simp only [visitRecCore, Name.parent, hInd]
    rw [if_neg hFalse, if_neg (by simp [hRec])]
    rw [if_neg (by omega)]
    rw [hdropR]
    simp [visitMinors]
  refine ⟨hC, hR, ?_, ?_⟩
  · rw [hC]
    intro h
    rcases hm : visitList V
        ((argsC.drop (info.nparams + 1 + info.nindices + 1)).take info.cnames.length) with em | ms
    · rw [hm] at h
      simp only [error_bind, Except.error.injEq] at h
      obtain ⟨x, _, hx⟩ := visitList_error (by rw [hm, h])
      exact hV x hx
    · rw [hm] at h
      simp only [ok_bind] at h
      rcases hmj : V (argAt argsC (info.nparams + 1 + info.nindices)) with ej | mj
      · rw [hmj] at h
        simp only [error_bind, Except.error.injEq] at h
        exact hV _ (by rw [hmj, h])
      · rw [hmj] at h
        simp only [ok_bind] at h
        rcases hfn : V (.const (.str I ("cases_on")) ls) with ef | fn'
        · rw [hfn] at h
          simp only [error_bind, Except.error.injEq] at h
          exact hV _ (by rw [hfn, h])
        · rw [hfn] at h
          simp at h
  · rw [hR]
    intro h
    rcases hmj : V (argAt argsR (info.nparams + 1 + info.cnames.length + info.nindices)) with ej | mj
    · rw [hmj] at h
      simp only [error_bind, Except.error.injEq] at h
      exact hV _ (by rw [hmj, h])
    · rw [hmj] at h
      simp only [ok_bind] at h
      rcases hm : visitList V ((argsR.drop (info.nparams + 1)).take info.cnames.length) with em | ms
      · rw [hm] at h
        simp only [error_bind, Except.error.injEq] at h
        obtain ⟨x, _, hx⟩ := visitList_error (by rw [hm, h])
        exact hV x hx
      · rw [hm] at h
        simp at h

theorem C10_exact_arity_minors_in_place_witness :
    visitCasesCore envT (fun x => .ok x) (.const (.str tName ("cases_on")) [])
      [.value 0, .value 1, .value 2, .value 3] ≠ .error .minorNotLambda :=
  (C10_exact_arity_minors_in_place envT (fun x => .ok x)
    [.value 0, .value 1, .value 2, .value 3] ⟨0, 0, [c1Name, c2Name]⟩
    (by decide) (by decide) (by decide) (by decide) (by decide)
    (fun x => by simp)).2.2.1

theorem visitMinor1_ok {env : Environment} {V : Expr → Except Err Expr} {p : Nat}
    {args' : List Expr} {c : Name} {m : Expr} {r : Expr}
    (h : visitMinor1 env V p args' c m = .ok r) :
    p ≤ env.ctorArity c ∧
    ∃ locs body body',
      peelMinor (max (freshLoc m) (freshLocs args')) (env.ctorArity c - p) 0 m
        = .ok (locs, body) ∧
      V body = .ok body' ∧
      r = eraseLLT (mkLambdaLocs (max (freshLoc m) (freshLocs args')) locs
        (betaReduce (mkAppList body' args'))) := by
  simp only [visitMinor1] at h
  split at h
  · exact absurd h (by simp)
  · rcases hp : peelMinor (max (freshLoc m) (freshLocs args')) (env.ctorArity c - p) 0 m
        with e | ⟨locs, body⟩
    · rw [hp] at h; simp at h
    · rw [hp] at h
      simp only [ok_bind] at h
      rcases hb : V body with e | body'
      · rw [hb] at h; simp at h
      · rw [hb] at h
        simp only [ok_bind, pure_eq_ok, Except.ok.injEq] at h
        exact ⟨by omega, locs, body, body', rfl, hb, h.symm⟩

theorem visitMinor1_error_of_peel {env : Environment} {V : Expr → Except Err Expr} {p : Nat}
    {args' : List Expr} {c : Name} {m : Expr}
    (hle : p ≤ env.ctorArity c)
    (hp : peelMinor (max (freshLoc m) (freshLocs args')) (env.ctorArity c - p) 0 m
      = .error .minorNotLambda) :
    visitMinor1 env V p args' c m = .error .minorNotLambda := by
  simp only [visitMinor1]
  rw [if_neg (by omega), hp]
  rfl

theorem visitMinorsLoop_ok_get {env : Environment} {V : Expr → Except Err Expr} {p : Nat}
    {args' : List Expr} :
    ∀ {minors : List Expr} {cnames : List Name} {out : List Expr},
      visitMinorsLoop env V p args' minors cnames = .ok out →
      out.length = minors.length ∧
      ∀ k m c, minors.get? k = some m → cnames.get? k = some c →
        ∃ r, visitMinor1 env V p args' c m = .ok r ∧ out.get? k = some r := by
  intro minors
  induction minors with
  | nil =>
    intro cnames out h
    simp only [visitMinorsLoop, pure_eq_ok, Except.ok.injEq] at h
    subst h
    exact ⟨rfl, by intro k m c hm; simp at hm⟩
  | cons m0 ms ih =>
    intro cnames out h
    cases cnames with
    | nil => simp [visitMinorsLoop] at h
    | cons c0 cs =>
      simp only [visitMinorsLoop] at h
      rcases h0 : visitMinor1 env V p args' c0 m0 with e | r0
      · rw [h0] at h; simp at h
      · rw [h0] at h
        simp only [ok_bind] at h
        rcases hs : visitMinorsLoop env V p args' ms cs with e | rs
        · rw [hs] at h; simp at h
        · rw [hs] at h
          simp only [ok_bind, pure_eq_ok, Except.ok.injEq] at h
          subst h
          obtain ⟨hlen, hget⟩ := ih hs
          refine ⟨by simp [hlen], ?_⟩
          intro k m c hm hc
          cases k with
          | zero =>
            simp only [List.get?] at hm hc
            obtain rfl : m0 = m := by injection hm
            obtain rfl : c0 = c := by injection hc
            exact ⟨r0, h0, rfl⟩
          | succ k =>
            simp only [List.get?] at hm hc ⊢
            exact hget k m c hm hc

theorem visitMinorsLoop_error_at {env : Environment} {V : Expr → Except Err Expr} {p : Nat}
    {args' : List Expr} :
    ∀ {k : Nat} {minors : List Expr} {cnames : List Name} {m : Expr} {c : Name}
      {pre : List Expr} {e : Err},
      minors.get? k = some m → cnames.get? k = some c →
      visitMinorsLoop env V p args' (minors.take k) (cnames.take k) = .ok pre →
      visitMinor1 env V p args' c m = .error e →
      visitMinorsLoop env V p args' minors cnames = .error e := by
  intro k
  induction k with
  | zero =>
    intro minors cnames m c pre e hm hc _ herr
    cases minors with
    | nil => simp at hm
    | cons m0 ms =>
      cases cnames with
      | nil => simp at hc
      | cons c0 cs =>
        obtain rfl : m0 = m := by injection hm
        obtain rfl : c0 = c := by injection hc
        simp only [visitMinorsLoop, herr, error_bind]
  | succ k ih =>
    intro minors cnames m c pre e hm hc hpre herr
    cases minors with
    | nil => simp at hm
    | cons m0 ms =>
      cases cnames with
      | nil => simp at hc
      | cons c0 cs =>
        simp only [List.get?] at hm hc
        simp only [List.take_succ_cons, visitMinorsLoop] at hpre ⊢
        rcases h0 : visitMinor1 env V p args' c0 m0 with e0 | r0
        · rw [h0] at hpre; simp at hpre
        · rw [h0] at hpre
          simp only [ok_bind] at hpre ⊢
          rcases hs : visitMinorsLoop env V p args' (ms.take k) (cs.take k) with e0 | rs
          · rw [hs] at hpre; simp at hpre
          · rw [ih hm hc hs herr]
            rfl

/-- C1: For a case-analysis application with at least one extra
trailing argument: the extra arguments are all rewritten independently
first; then minor premise `k` (covering constructor `k` of arity
`carity`, in a family with `nparams` parameters) is processed by peeling
exactly `carity − nparams` leading lambda binders (conjunct
`locs.length = …`), rewriting the peeled body with the recursive hook
`V`, applying all rewritten extra arguments to it with beta-reduction,
and re-abstracting the peeled binders with the neutral marker as every
binder's domain annotation (the `leadingNeutralLams` conjunct); and if
the peel of minor `k` meets a non-lambda (the earlier minors having been
processed successfully), the whole rewrite fails with the fatal
"minor premise is expected to be a lambda-expression" error (part B). -/
theorem C1_cases_extra_args_redistribution (env : Environment) (V : Expr → Except Err Expr)
    {I : Name} {ls : List Level} {args : List Expr} (info : InductiveInfo)
    (k : Nat) (minor : Expr) (cname : Name)
    (hInd : env.inductives I = some info)
    (hFalse : I ≠ falseName)
    (harity : info.nparams + 1 + info.nindices + 1 + info.cnames.length < args.length)
    (hm : ((args.drop (info.nparams + 1 + info.nindices + 1)).take info.cnames.length).get? k
      = some minor)
    (hc : info.cnames.get? k = some cname) :
    (∀ out, visitCasesCore env V (.const (.str I ("cases_on")) ls) args = .ok out →
      ∃ extras' locs body body' minorsOut major' newFn',
        visitList V (args.drop (info.nparams + 1 + info.nindices + 1 + info.cnames.length))
          = .ok extras' ∧
        info.nparams ≤ env.ctorArity cname ∧
        peelMinor (max (freshLoc minor) (freshLocs extras'))
          (env.ctorArity cname - info.nparams) 0 minor = .ok (locs, body) ∧
        locs.length = env.ctorArity cname - info.nparams ∧
        V body = .ok body' ∧
        visitMinorsLoop env V info.nparams extras'
          ((args.drop (info.nparams + 1 + info.nindices + 1)).take info.cnames.length)
          info.cnames = .ok minorsOut ∧
        minorsOut.get? k = some (eraseLLT (mkLambdaLocs
          (max (freshLoc minor) (freshLocs extras')) locs
          (betaReduce (mkAppList body' extras')))) ∧
        leadingNeutralLams (env.ctorArity cname - info.nparams)
          (eraseLLT (mkLambdaLocs (max (freshLoc minor) (freshLocs extras')) locs
            (betaReduce (mkAppList body' extras')))) = true ∧
        V (argAt args (info.nparams + 1 + info.nindices)) = .ok major' ∧
        V (.const (.str I ("cases_on")) ls) = .ok newFn' ∧
        out = mkAppList (.app newFn' major') minorsOut) ∧
    (∀ extras' pre,
      visitList V (args.drop (info.nparams + 1 + info.nindices + 1 + info.cnames.length))
        = .ok extras' →
      visitMinorsLoop env V info.nparams extras'
        (((args.drop (info.nparams + 1 + info.nindices + 1)).take info.cnames.length).take k)
        (info.cnames.take k) = .ok pre →
      info.nparams ≤ env.ctorArity cname →
      peelMinor (max (freshLoc minor) (freshLocs extras'))
        (env.ctorArity cname - info.nparams) 0 minor = .error .minorNotLambda →
      visitCasesCore env V (.const (.str I ("cases_on")) ls) args
        = .error .minorNotLambda) := by
  have hEq : visitCasesCore env V (.const (.str I ("cases_on")) ls) args =
      (do
        let minors' ← visitMinors env V info.nparams
          ((args.drop (info.nparams + 1 + info.nindices + 1)).take info.cnames.length)
          info.cnames
          (args.drop (info.nparams + 1 + info.nindices + 1 + info.cnames.length))
        let major ← V (argAt args (info.nparams + 1 + info.nindices))
        let newFn ← V (.const (.str I ("cases_on")) ls)
        pure (mkAppList (.app newFn major) minors')) := by
    simp only [visitCasesCore, Name.parent, hInd]
    rw [if_neg hFalse, if_neg (by omega)]
  have hxlen : 0 < (args.drop
      (info.nparams + 1 + info.nindices + 1 + info.cnames.length)).length := by
    rw [List.length_drop]
    omega
  have hMin : visitMinors env V info.nparams
      ((args.drop (info.nparams + 1 + info.nindices + 1)).take info.cnames.length)
      info.cnames
      (args.drop (info.nparams + 1 + info.nindices + 1 + info.cnames.length)) =
      (do
        let extras' ← visitList V
          (args.drop (info.nparams + 1 + info.nindices + 1 + info.cnames.length))
        visitMinorsLoop env V info.nparams extras'
          ((args.drop (info.nparams + 1 + info.nindices + 1)).take info.cnames.length)
          info.cnames) := by
    simp only [visitMinors]
    rw [if_pos hxlen]
  constructor
  · intro out hout
    rw [hEq] at hout
    rcases hmv : visitMinors env V info.nparams
        ((args.drop (info.nparams + 1 + info.nindices + 1)).take info.cnames.length)
        info.cnames
        (args.drop (info.nparams + 1 + info.nindices + 1 + info.cnames.length))
        with e | minorsOut
    · rw [hmv] at hout; simp at hout
    · rw [hmv] at hout
      simp only [ok_bind] at hout
      rcases hmj : V (argAt args (info.nparams + 1 + info.nindices)) with e | major'
      · rw [hmj] at hout; simp at hout
      · rw [hmj] at hout
        simp only [ok_bind] at hout
        rcases hfn : V (.const (.str I ("cases_on")) ls) with e | newFn'
        · rw [hfn] at hout; simp at hout
        · rw [hfn] at hout
          simp only [ok_bind, pure_eq_ok, Except.ok.injEq] at hout
          rw [hMin] at hmv
          rcases hex : visitList V
              (args.drop (info.nparams + 1 + info.nindices + 1 + info.cnames.length))
              with e | extras'
          · rw [hex] at hmv; simp at hmv
          · rw [hex] at hmv
            simp only [ok_bind] at hmv
            obtain ⟨_, hget⟩ := visitMinorsLoop_ok_get hmv
            obtain ⟨r, hr1, hr2⟩ := hget k minor cname hm hc
            obtain ⟨hle, locs, body, body', hpeel, hbody, hrdef⟩ := visitMinor1_ok hr1
            have hll := peelMinor_length _ _ _ _ _ hpeel
            refine ⟨extras', locs, body, body', minorsOut, major', newFn',
              rfl, hle, hpeel, hll, hbody, hmv, ?_, ?_, rfl, rfl, hout.symm⟩
            · rw [hr2, hrdef]
            · rw [← hll]
              exact leadingNeutralLams_eraseLLT_mkLambdaLocs _ _ _
  · intro extras' pre hex hpre hle hpeel
    rw [hEq, hMin, hex]
    simp only [ok_bind]
    rw [visitMinorsLoop_error_at hm hc hpre (visitMinor1_error_of_peel hle hpeel)]
    rfl

theorem C1_cases_extra_args_redistribution_witness :
    visitCasesCore envT (fun x => .ok x) (.const (.str tName ("cases_on")) [])
      [.value 0, .value 1, .lam ("x") (.value 2) (.value 9),
       .lam ("x") (.value 2) (.lam ("y") (.value 2) (.lam ("z") (.value 2) (.value 8))),
       .value 5]
      = .error .minorNotLambda :=
  (C1_cases_extra_args_redistribution envT (fun x => .ok x)
    ⟨0, 0, [c1Name, c2Name]⟩ 0
    (.lam ("x") (.value 2) (.value 9)) c1Name
    (by decide) (by decide) (by decide) (by rfl) (by rfl)).2
    [.value 5] [] (by rfl) (by rfl) (by decide) (by rfl)

/-- The positional mapping from the recursor argument layout
(params, motive, minors, indices, major, extras) to the case-analysis
layout (params, motive, indices, major, minors, extras) of the same
family.  Modelled from the spec: "same positional math but with minors
adjacent to the motive rather than after the indices". -/
def recToCasesArgs (env : Environment) (I : Name) (args : List Expr) : List Expr :=
  match env.inductives I with
  | none => args
  | some info =>
    args.take (info.nparams + 1) ++
      (((args.drop (info.nparams + 1 + info.cnames.length)).take info.nindices) ++
        argAt args (info.nparams + 1 + info.cnames.length + info.nindices) ::
          (((args.drop (info.nparams + 1)).take info.cnames.length) ++
            args.drop (info.nparams + 1 + info.cnames.length + info.nindices + 1)))

/-- C2: A primitive-recursor application over a non-recursive family
that rewrites successfully produces exactly what the case-analysis
specializer produces on the head constant `I.cases_on` (with no universe
levels) and the argument list transposed so that the minor premises sit
after the indices and major premise instead of adjacent to the motive —
the same minor-redistribution logic being reused on identical inputs.
The hook `V` must fix the constant `I.cases_on` (as the rewriter's own
constant visitor does for any relevant constant). -/
theorem C2_rec_refines_casesOn (env : Environment) (V : Expr → Except Err Expr)
    {I : Name} (rn : Name) (ls : List Level) {args : List Expr} {r : Expr}
    (hpar : rn.parent = I)
    (hV : V (.const (.str I ("cases_on")) []) = .ok (.const (.str I ("cases_on")) []))
    (hok : visitRecCore env V (.const rn ls) args = .ok r) :
    visitCasesCore env V (.const (.str I ("cases_on")) []) (recToCasesArgs env I args)
      = .ok r := by
  simp only [visitRecCore, hpar] at hok
  by_cases hF : I = falseName
  · rw [if_pos hF] at hok
    simp only [pure_eq_ok, Except.ok.injEq] at hok
    simp [visitCasesCore, Name.parent, hF, hok]
  · rw [if_neg hF] at hok
    rcases hRec : env.isRecDT I with _ | _
    · rw [hRec] at hok
      simp only [Bool.false_eq_true, if_false] at hok
      rcases hInd : env.inductives I with _ | info
      · rw [hInd] at hok; simp at hok
      · simp only [hInd] at hok
        by_cases hlen : args.length <
            info.nparams + 1 + info.cnames.length + info.nindices + 1
        · rw [if_pos hlen] at hok; simp at hok
        · rw [if_neg hlen] at hok
          rcases hmj : V (argAt args
              (info.nparams + 1 + info.cnames.length + info.nindices)) with e | M
          · rw [hmj] at hok; simp at hok
          · rw [hmj] at hok
            simp only [ok_bind] at hok
            rcases hms : visitMinors env V info.nparams
                ((args.drop (info.nparams + 1)).take info.cnames.length) info.cnames
                (args.drop (info.nparams + 1 + info.cnames.length + info.nindices + 1))
                with e | Ms
            · rw [hms] at hok; simp at hok
            · rw [hms] at hok
              simp only [ok_bind, pure_eq_ok, Except.ok.injEq] at hok
              -- list bookkeeping for the transposed argument list
              have hlenTake : (args.take (info.nparams + 1)).length = info.nparams + 1 := by
                rw [List.length_take]
                omega
              have hlenInds : ((args.drop (info.nparams + 1 + info.cnames.length)).take
                  info.nindices).length = info.nindices := by
                rw [List.length_take, List.length_drop]
                omega
              have hlenMins : ((args.drop (info.nparams + 1)).take
                  info.cnames.length).length = info.cnames.length := by
                rw [List.length_take, List.length_drop]
                omega
              have h1 : (recToCasesArgs env I args).drop (info.nparams + 1) =
                  ((args.drop (info.nparams + 1 + info.cnames.length)).take info.nindices) ++
                    argAt args (info.nparams + 1 + info.cnames.length + info.nindices) ::
                      (((args.drop (info.nparams + 1)).take info.cnames.length) ++
                        args.drop
                          (info.nparams + 1 + info.cnames.length + info.nindices + 1)) := by
                simp only [recToCasesArgs, hInd]
                exact List.drop_left' hlenTake
              have h2 : (recToCasesArgs env I args).drop
                  (info.nparams + 1 + info.nindices) =
                  argAt args (info.nparams + 1 + info.cnames.length + info.nindices) ::
                    (((args.drop (info.nparams + 1)).take info.cnames.length) ++
                      args.drop
                        (info.nparams + 1 + info.cnames.length + info.nindices + 1)) := by
                rw [← List.drop_drop, h1]
                exact List.drop_left' hlenInds
              have h3 : (recToCasesArgs env I args).drop
                  (info.nparams + 1 + info.nindices + 1) =
                  ((args.drop (info.nparams + 1)).take info.cnames.length) ++
                    args.drop
                      (info.nparams + 1 + info.cnames.length + info.nindices + 1) := by
                rw [← List.drop_drop, h2]
                rfl
              have h4 : ((recToCasesArgs env I args).drop
                  (info.nparams + 1 + info.nindices + 1)).take info.cnames.length =
                  (args.drop (info.nparams + 1)).take info.cnames.length := by
                rw [h3]
                exact List.take_left' hlenMins
              have h5 : (recToCasesArgs env I args).drop
                  (info.nparams + 1 + info.nindices + 1 + info.cnames.length) =
                  args.drop
                    (info.nparams + 1 + info.cnames.length + info.nindices + 1) := by
                rw [← List.drop_drop, h3]
                exact List.drop_left' hlenMins
              have h6 : argAt (recToCasesArgs env I args)
                  (info.nparams + 1 + info.nindices) =
                  argAt args (info.nparams + 1 + info.cnames.length + info.nindices) := by
                rw [argAt, h2]
                rfl
              have hlen' : ¬ (recToCasesArgs env I args).length <
                  info.nparams + 1 + info.nindices + 1 + info.cnames.length := by
                have : (recToCasesArgs env I args).length =
                    (info.nparams + 1) + (info.nindices +
                      (1 + (info.cnames.length +
                        (args.drop (info.nparams + 1 + info.cnames.length +
                          info.nindices + 1)).length))) := by
                  simp only [recToCasesArgs, hInd]
                  simp [hlenTake, hlenInds, hlenMins]
                  omega
                omega
              simp only [visitCasesCore, Name.parent, hInd]
              rw [if_neg hF, if_neg hlen']
              rw [h4, h5, h6, hms]
              simp only [ok_bind]
              rw [hmj]
              simp only [ok_bind]
              rw [hV]
              simp only [ok_bind, pure_eq_ok, Except.ok.injEq]
              exact hok
    · rw [hRec] at hok
      simp at hok

theorem C2_rec_refines_casesOn_witness :
    visitCasesCore envT (fun x => .ok x) (.const (.str tName ("cases_on")) [])
      (recToCasesArgs envT tName
        [.value 0, .lam ("x") (.value 2) (.lam ("y") (.value 2) (.value 9)),
         .lam ("x") (.value 2) (.lam ("y") (.value 2) (.lam ("z") (.value 2) (.value 8))),
         .value 1])
      = .ok (mkAppList
          (.app (.const (.str tName ("cases_on")) []) (.value 1))
          [.lam ("x") (.value 2) (.lam ("y") (.value 2) (.value 9)),
           .lam ("x") (.value 2) (.lam ("y") (.value 2) (.lam ("z") (.value 2) (.value 8)))]) :=
  C2_rec_refines_casesOn envT (fun x => .ok x)
    (.str tName ("rec")) [] (by rfl) (by rfl) (by rfl)

/-- C7 counterexample: The claim predicts that the extra (seventh)
argument of an `eq.rec` application is recursively erased before being
reapplied; erasing the universe `Sort 0` yields the neutral marker, yet
the rewriter's actual output carries the unrewritten `Sort 0`, so the
claim fails at this input. -/
theorem C7_counterexample_eqRec_extra_not_erased :
    visit envT 2 (mkAppList (.const eqRecName [])
      [.value 0, .value 1, .value 2, .value 3, .value 4, .value 5, .sort .zero])
      = .ok (.app (.value 3) (.sort .zero)) ∧
    visit envT 2 (.sort .zero) = .ok neutralExpr ∧
    Expr.app (.value 3) (.sort .zero) ≠ .app (.value 3) neutralExpr :=
  ⟨rfl, rfl, by decide⟩

/-- C7 amended: In the case-analysis and recursor specializers the
extra arguments beyond the computed arity are rewritten before being
redistributed (see `C1_cases_extra_args_redistribution`), but in the
equality-cast (and no-confusion/subtype) specializers they are reapplied
*unrewritten*, with beta-reduction: an `eq.rec` application erases to the
rewritten carried value `args[3]` applied to the original trailing
arguments `args[6…]`, beta-reduced. -/
theorem C7_amended_eqRec_extras_reapplied_unrewritten (env : Environment) (fuel : Nat)
    {ls : List Level} {args : List Expr}
    (hne : args ≠ [])
    (hirr : env.irrel (mkAppList (.const eqRecName ls) args) = false)
    (hlen : 6 ≤ args.length) :
    visit env (fuel + 1) (mkAppList (.const eqRecName ls) args) =
      (do
        let major ← visit env fuel (argAt args 3)
        pure (betaReduce (mkAppList major (args.drop 6)))) := by
  rw [visit_dispatch_eqRec env fuel hne hirr]
  simp only [visitEqRecCore, addArgs]
  rw [if_neg (by omega)]

theorem C7_amended_eqRec_extras_reapplied_unrewritten_witness :
    visit envT 2 (mkAppList (.const eqRecName [])
      [.value 0, .value 1, .value 2, .value 3, .value 4, .value 5, .sort .zero, .value 7])
      = .ok (.app (.app (.value 3) (.sort .zero)) (.value 7)) :=
  (C7_amended_eqRec_extras_reapplied_unrewritten envT 1
    (by decide) (by decide) (by decide)).trans (by rfl)

/-- No Constant-reference node of the term carries universe-level
instantiation data. -/
def noLevels : Expr → Bool
  | .const _ ls => ls.isEmpty
  | .app f a => noLevels f && noLevels a
  | .lam _ t b => noLevels t && noLevels b
  | .pi _ t b => noLevels t && noLevels b
  | .letE _ t v b => noLevels t && noLevels v && noLevels b
  | _ => true

/-- C8 counterexample: A universe-instantiated constant sitting in
the extra (seventh) argument of an `eq.rec` application survives into the
rewriter's output unchanged (the extra is reapplied without being
visited), so the output contains a Constant-reference that still carries
universe-level data. -/
theorem C8_counterexample_level_leak :
    Except.map noLevels (visit envT 2 (mkAppList (.const eqRecName [])
      [.value 0, .value 1, .value 2, .value 3, .value 4, .value 5,
       .const (.str .anonymous ("lev")) [.zero]]))
      = .ok false := rfl

theorem noLevels_liftE (d : Nat) : ∀ (e : Expr) (k : Nat), noLevels (liftE d e k) = noLevels e := by
  intro e
  induction e with
  | bvar i => intro k; simp only [liftE]; split <;> rfl
  | app f a ihf iha => intro k; simp [liftE, noLevels, ihf, iha]
  | lam nm t b iht ihb => intro k; simp [liftE, noLevels, iht, ihb]
  | pi nm t b iht ihb => intro k; simp [liftE, noLevels, iht, ihb]
  | letE nm t v b iht ihv ihb => intro k; simp [liftE, noLevels, iht, ihv, ihb]
  | _ => intro k; rfl

theorem noLevels_instAux {v : Expr} (hv : noLevels v = true) :
    ∀ (e : Expr) (k : Nat), noLevels e = true → noLevels (instAux v e k) = true := by
  intro e
  induction e with
  | bvar i =>
    intro k _
    simp only [instAux]
    split
    · rw [noLevels_liftE]; exact hv
    · split <;> rfl
  | app f a ihf iha =>
    intro k h
    simp only [noLevels, Bool.and_eq_true] at h
    simp [instAux, noLevels, ihf k h.1, iha k h.2]
  | lam nm t b iht ihb =>
    intro k h
    simp only [noLevels, Bool.and_eq_true] at h
    simp [instAux, noLevels, iht k h.1, ihb (k + 1) h.2]
  | pi nm t b iht ihb =>
    intro k h
    simp only [noLevels, Bool.and_eq_true] at h
    simp [instAux, noLevels, iht k h.1, ihb (k + 1) h.2]
  | letE nm t vl b iht ihv ihb =>
    intro k h
    simp only [noLevels, Bool.and_eq_true] at h
    simp [instAux, noLevels, iht k h.1.1, ihv k h.1.2, ihb (k + 1) h.2]
  | _ => intro k h; exact h

theorem noLevels_instE {b v : Expr} (hb : noLevels b = true) (hv : noLevels v = true) :
    noLevels (instE b v) = true :=
  noLevels_instAux hv b 0 hb

theorem noLevels_abstractLoc (id : Nat) :
    ∀ (e : Expr) (k : Nat), noLevels (abstractLoc id e k) = noLevels e := by
  intro e
  induction e with
  | fvar j => intro k; simp only [abstractLoc]; split <;> rfl
  | app f a ihf iha => intro k; simp [abstractLoc, noLevels, ihf, iha]
  | lam nm t b iht ihb => intro k; simp [abstractLoc, noLevels, iht, ihb]
  | pi nm t b iht ihb => intro k; simp [abstractLoc, noLevels, iht, ihb]
  | letE nm t v b iht ihv ihb => intro k; simp [abstractLoc, noLevels, iht, ihv, ihb]
  | _ => intro k; rfl

theorem noLevels_mkAppList {f : Expr} {as : List Expr}
    (hf : noLevels f = true) (has : ∀ x ∈ as, noLevels x = true) :
    noLevels (mkAppList f as) = true := by
  induction as generalizing f with
  | nil => exact hf
  | cons a as ih =>
    refine ih (f := .app f a) ?_ (fun x hx => has x (by simp [hx]))
    simp only [noLevels, Bool.and_eq_true]
    exact ⟨hf, has a (by simp)⟩

theorem noLevels_betaReduceAux {f : Expr} {as : List Expr}
    (hf : noLevels f = true) (has : ∀ x ∈ as, noLevels x = true) :
    noLevels (betaReduceAux f as) = true := by
  induction as generalizing f with
  | nil => cases f <;> exact hf
  | cons a as ih =>
    cases f with
    | lam nm t b =>
      simp only [noLevels, Bool.and_eq_true] at hf
      exact ih (noLevels_instE hf.2 (has a (by simp))) (fun x hx => has x (by simp [hx]))
    | _ => exact noLevels_mkAppList hf has

theorem noLevels_getAppArgsAux :
    ∀ {e : Expr} {acc : List Expr}, noLevels e = true → (∀ x ∈ acc, noLevels x = true) →
      noLevels (getAppArgsAux e acc).1 = true ∧
        ∀ x ∈ (getAppArgsAux e acc).2, noLevels x = true := by
  intro e
  induction e with
  | app f a ihf _ =>
    intro acc he hacc
    simp only [noLevels, Bool.and_eq_true] at he
    exact ihf he.1 (by
      intro x hx
      rcases List.mem_cons.mp hx with h | h
      · rw [h]; exact he.2
      · exact hacc x h)
  | _ =>
    intro acc he hacc
    exact ⟨he, hacc⟩

theorem noLevels_betaReduce {e : Expr} (he : noLevels e = true) :
    noLevels (betaReduce e) = true := by
  obtain ⟨h1, h2⟩ := noLevels_getAppArgsAux he
    (by simp : ∀ x ∈ ([] : List Expr), noLevels x = true)
  exact noLevels_betaReduceAux h1 h2

theorem noLevels_eraseLLT : ∀ {e : Expr}, noLevels e = true → noLevels (eraseLLT e) = true := by
  intro e
  induction e with
  | lam nm t b _ ihb =>
    intro h
    simp only [noLevels, Bool.and_eq_true] at h
    simp [eraseLLT, noLevels, ihb h.2, neutralExpr]
  | letE nm t v b _ _ ihb =>
    intro h
    simp only [noLevels, Bool.and_eq_true] at h
    simp [eraseLLT, noLevels, ihb h.2, h.1.2, neutralExpr]
  | _ => intro h; exact h

theorem noLevels_mkLambdaLocs :
    ∀ {locs : List (String × Expr)} {base : Nat} {body : Expr},
      (∀ p ∈ locs, noLevels p.2 = true) → noLevels body = true →
      noLevels (mkLambdaLocs base locs body) = true := by
  intro locs
  induction locs with
  | nil => intro base body _ hb; exact hb
  | cons p rest ih =>
    intro base body hlocs hb
    obtain ⟨nm, d⟩ := p
    simp only [mkLambdaLocs, noLevels, Bool.and_eq_true]
    refine ⟨hlocs ⟨nm, d⟩ (by simp), ?_⟩
    rw [noLevels_abstractLoc]
    exact ih (fun q hq => hlocs q (by simp [hq])) hb

theorem noLevels_peelMinor {base : Nat} :
    ∀ {n k : Nat} {e : Expr} {locs : List (String × Expr)} {body : Expr},
      peelMinor base n k e = .ok (locs, body) → noLevels e = true →
      (∀ p ∈ locs, noLevels p.2 = true) ∧ noLevels body = true := by
  intro n
  induction n with
  | zero =>
    intro k e locs body h he
    simp only [peelMinor, pure_eq_ok, Except.ok.injEq, Prod.mk.injEq] at h
    obtain ⟨h1, h2⟩ := h
    subst h1; subst h2
    exact ⟨by simp, he⟩
  | succ n ih =>
    intro k e locs body h he
    cases e with
    | lam nm d b =>
      simp only [peelMinor] at h
      rcases hp : peelMinor base n (k + 1) (instE b (.fvar (base + k))) with e' | ⟨ls', r'⟩
      · rw [hp] at h; simp at h
      · rw [hp] at h
        simp only [ok_bind, pure_eq_ok, Except.ok.injEq, Prod.mk.injEq] at h
        obtain ⟨h1, h2⟩ := h
        subst h1; subst h2
        simp only [noLevels, Bool.and_eq_true] at he
        obtain ⟨hl, hr⟩ := ih hp (noLevels_instE he.2 (by rfl))
        refine ⟨?_, hr⟩
        intro p hp'
        rcases List.mem_cons.mp hp' with h | h
        · rw [h]; exact he.1
        · exact hl p h
    | _ => simp [peelMinor] at h

theorem noLevels_consumeLamsAux {base : Nat} :
    ∀ {n k : Nat} {e : Expr}, noLevels e = true →
      (∀ p ∈ (consumeLamsAux base n k e).1, noLevels p.2 = true) ∧
        noLevels (consumeLamsAux base n k e).2 = true := by
  intro n
  induction n with
  | zero =>
    intro k e he
    exact ⟨by simp [consumeLamsAux], noLevels_betaReduce he⟩
  | succ n ih =>
    intro k e he
    cases e with
    | lam nm d b =>
      simp only [noLevels, Bool.and_eq_true] at he
      obtain ⟨hl, hr⟩ := ih (k := k + 1) (noLevels_instE he.2 (v := Expr.fvar (base + k)) rfl)
      simp only [consumeLamsAux]
      refine ⟨?_, hr⟩
      intro p hp
      rcases List.mem_cons.mp hp with h | h
      · rw [h]; exact he.1
      · exact hl p h
    | bvar i => exact ⟨by simp [consumeLamsAux], noLevels_betaReduce he⟩
    | fvar i => exact ⟨by simp [consumeLamsAux], noLevels_betaReduce he⟩
    | const n' ls => exact ⟨by simp [consumeLamsAux], noLevels_betaReduce he⟩
    | sort u => exact ⟨by simp [consumeLamsAux], noLevels_betaReduce he⟩
    | pi nm d b => exact ⟨by simp [consumeLamsAux], noLevels_betaReduce he⟩
    | app f a => exact ⟨by simp [consumeLamsAux], noLevels_betaReduce he⟩
    | letE nm t v b => exact ⟨by simp [consumeLamsAux], noLevels_betaReduce he⟩
    | mac mk => exact ⟨by simp [consumeLamsAux], noLevels_betaReduce he⟩
    | mvar i => exact ⟨by simp [consumeLamsAux], noLevels_betaReduce he⟩
    | value v => exact ⟨by simp [consumeLamsAux], noLevels_betaReduce he⟩

theorem noLevels_consumeLams {base : Nat} {e : Expr} (he : noLevels e = true) :
    (∀ p ∈ (consumeLams base e).1, noLevels p.2 = true) ∧
      noLevels (consumeLams base e).2 = true :=
  noLevels_consumeLamsAux he

theorem noLevels_argAt {args : List Expr} (h : ∀ x ∈ args, noLevels x = true) (i : Nat) :
    noLevels (argAt args i) = true := by
  rw [argAt]
  rcases hd : (args.drop i).headD neutralExpr with _ | _
  all_goals {
    rcases hh : args.drop i with _ | ⟨y, ys⟩
    · rw [hh] at hd
      simp only [List.headD_nil] at hd
      rw [← hd]; rfl
    · rw [hh] at hd
      simp only [List.headD_cons] at hd
      rw [← hd]
      exact h y (List.drop_subset i args (by rw [hh]; simp))
  }

theorem noLevels_addArgs {e : Expr} {start : Nat} {args : List Expr}
    (he : noLevels e = true) (hargs : ∀ x ∈ args, noLevels x = true) :
    noLevels (addArgs e start args) = true :=
  noLevels_betaReduce (noLevels_mkAppList he
    (fun x hx => hargs x (List.drop_subset start args hx)))

theorem noLevels_appNeutrals {e : Expr} (he : noLevels e = true) :
    ∀ (n : Nat), noLevels (appNeutrals e n) = true := by
  intro n
  induction n generalizing e with
  | zero => exact he
  | succ n ih =>
    simp only [appNeutrals]
    exact ih (by simp [noLevels, he, neutralExpr])

theorem noLevels_visitList {V : Expr → Except Err Expr}
    (hV : ∀ x r, noLevels x = true → V x = .ok r → noLevels r = true) :
    ∀ {l l' : List Expr}, (∀ x ∈ l, noLevels x = true) → visitList V l = .ok l' →
      ∀ y ∈ l', noLevels y = true := by
  intro l
  induction l with
  | nil =>
    intro l' _ h
    simp only [visitList, pure_eq_ok, Except.ok.injEq] at h
    subst h
    simp
  | cons x xs ih =>
    intro l' hl h
    simp only [visitList] at h
    rcases hx : V x with e | y
    · rw [hx] at h; simp at h
    · rw [hx] at h
      simp only [ok_bind] at h
      rcases hxs : visitList V xs with e | ys
      · rw [hxs] at h; simp at h
      · rw [hxs] at h
        simp only [ok_bind, pure_eq_ok, Except.ok.injEq] at h
        subst h
        intro z hz
        rcases List.mem_cons.mp hz with hz | hz
        · rw [hz]
          exact hV x y (hl x (by simp)) hx
        · exact ih (fun w hw => hl w (by simp [hw])) hxs z hz

theorem noLevels_visitMinor1 {env : Environment} {V : Expr → Except Err Expr}
    (hV : ∀ x r, noLevels x = true → V x = .ok r → noLevels r = true)
    {p : Nat} {args' : List Expr} {c : Name} {m : Expr} {r : Expr}
    (hargs' : ∀ x ∈ args', noLevels x = true) (hm : noLevels m = true)
    (h : visitMinor1 env V p args' c m = .ok r) : noLevels r = true := by
  obtain ⟨_, locs, body, body', hpeel, hbody, hdef⟩ := visitMinor1_ok h
  obtain ⟨hlocs, hbodyNL⟩ := noLevels_peelMinor hpeel hm
  rw [hdef]
  exact noLevels_eraseLLT (noLevels_mkLambdaLocs hlocs
    (noLevels_betaReduce (noLevels_mkAppList (hV body body' hbodyNL hbody) hargs')))

theorem noLevels_visitMinorsLoop {env : Environment} {V : Expr → Except Err Expr}
    (hV : ∀ x r, noLevels x = true → V x = .ok r → noLevels r = true)
    {p : Nat} {args' : List Expr}
    (hargs' : ∀ x ∈ args', noLevels x = true) :
    ∀ {minors : List Expr} {cnames : List Name} {out : List Expr},
      (∀ x ∈ minors, noLevels x = true) →
      visitMinorsLoop env V p args' minors cnames = .ok out →
      ∀ y ∈ out, noLevels y = true := by
  intro minors
  induction minors with
  | nil =>
    intro cnames out _ h
    simp only [visitMinorsLoop, pure_eq_ok, Except.ok.injEq] at h
    subst h
    simp
  | cons m0 ms ih =>
    intro cnames out hmem h
    cases cnames with
    | nil => simp [visitMinorsLoop] at h
    | cons c0 cs =>
      simp only [visitMinorsLoop] at h
      rcases h0 : visitMinor1 env V p args' c0 m0 with e | r0
      · rw [h0] at h; simp at h
      · rw [h0] at h
        simp only [ok_bind] at h
        rcases hs : visitMinorsLoop env V p args' ms cs with e | rs
        · rw [hs] at h; simp at h
        · rw [hs] at h
          simp only [ok_bind, pure_eq_ok, Except.ok.injEq] at h
          subst h
          intro y hy
          rcases List.mem_cons.mp hy with hy | hy
          · rw [hy]
            exact noLevels_visitMinor1 hV hargs' (hmem m0 (by simp)) h0
          · exact ih (fun w hw => hmem w (by simp [hw])) hs y hy

theorem noLevels_visitMinors {env : Environment} {V : Expr → Except Err Expr}
    (hV : ∀ x r, noLevels x = true → V x = .ok r → noLevels r = true)
    {p : Nat} {minors : List Expr} {cnames : List Name} {args : List Expr} {out : List Expr}
    (hminors : ∀ x ∈ minors, noLevels x = true)
    (hargs : ∀ x ∈ args, noLevels x = true)
    (h : visitMinors env V p minors cnames args = .ok out) :
    ∀ y ∈ out, noLevels y = true := by
  simp only [visitMinors] at h
  split at h
  · rcases hx : visitList V args with e | args'
    · rw [hx] at h; simp at h
    · rw [hx] at h
      simp only [ok_bind] at h
      exact noLevels_visitMinorsLoop hV (noLevels_visitList hV hargs hx) hminors h
  · exact noLevels_visitList hV hminors h

theorem noLevels_visitCasesCore {env : Environment} {V : Expr → Except Err Expr}
    (hV : ∀ x r, noLevels x = true → V x = .ok r → noLevels r = true)
    {fn : Expr} {args : List Expr} {r : Expr}
    (hfn : noLevels fn = true) (hargs : ∀ x ∈ args, noLevels x = true)
    (h : visitCasesCore env V fn args = .ok r) : noLevels r = true := by
  cases fn with
  | const cn ls =>
    simp only [visitCasesCore] at h
    split at h
    · simp only [pure_eq_ok, Except.ok.injEq] at h
      subst h
      rfl
    · split at h
      · simp at h
      · split at h
        · simp at h
        · rcases hms : visitMinors env V _ _ _ _ with e | Ms
          · rw [hms] at h; simp at h
          · rw [hms] at h
            simp only [ok_bind] at h
            rcases hmj : V (argAt args _) with e | M
            · rw [hmj] at h; simp at h
            · rw [hmj] at h
              simp only [ok_bind] at h
              rcases hf : V (.const cn ls) with e | F
              · rw [hf] at h; simp at h
              · rw [hf] at h
                simp only [ok_bind, pure_eq_ok, Except.ok.injEq] at h
                subst h
                refine noLevels_mkAppList ?_ (noLevels_visitMinors hV
                  (fun x hx => hargs x
                    (List.drop_subset _ args (List.take_subset _ _ hx)))
                  (fun x hx => hargs x (List.drop_subset _ args hx)) hms)
                simp only [noLevels, Bool.and_eq_true]
                exact ⟨hV _ F hfn hf, hV _ M (noLevels_argAt hargs _) hmj⟩
  | bvar i => simp [visitCasesCore] at h
  | fvar i => simp [visitCasesCore] at h
  | sort u => simp [visitCasesCore] at h
  | pi nm d b => simp [visitCasesCore] at h
  | lam nm d b => simp [visitCasesCore] at h
  | app f a => simp [visitCasesCore] at h
  | letE nm t v b => simp [visitCasesCore] at h
  | mac mk => simp [visitCasesCore] at h
  | mvar i => simp [visitCasesCore] at h
  | value v => simp [visitCasesCore] at h

theorem noLevels_visitRecCore {env : Environment} {V : Expr → Except Err Expr}
    (hV : ∀ x r, noLevels x = true → V x = .ok r → noLevels r = true)
    {fn : Expr} {args : List Expr} {r : Expr}
    (hargs : ∀ x ∈ args, noLevels x = true)
    (h : visitRecCore env V fn args = .ok r) : noLevels r = true := by
  cases fn with
  | const cn ls =>
    simp only [visitRecCore] at h
    split at h
    · simp only [pure_eq_ok, Except.ok.injEq] at h
      subst h
      rfl
    · split at h
      · simp at h
      · split at h
        · simp at h
        · split at h
          · simp at h
          · rcases hmj : V (argAt args _) with e | M
            · rw [hmj] at h; simp at h
            · rw [hmj] at h
              simp only [ok_bind] at h
              rcases hms : visitMinors env V _ _ _ _ with e | Ms
              · rw [hms] at h; simp at h
              · rw [hms] at h
                simp only [ok_bind, pure_eq_ok, Except.ok.injEq] at h
                subst h
                refine noLevels_mkAppList ?_ (noLevels_visitMinors hV
                  (fun x hx => hargs x
                    (List.drop_subset _ args (List.take_subset _ _ hx)))
                  (fun x hx => hargs x (List.drop_subset _ args hx)) hms)
                simp only [noLevels, Bool.and_eq_true]
                exact ⟨by simp [noLevels], hV _ M (noLevels_argAt hargs _) hmj⟩
  | bvar i => simp [visitRecCore] at h
  | fvar i => simp [visitRecCore] at h
  | sort u => simp [visitRecCore] at h
  | pi nm d b => simp [visitRecCore] at h
  | lam nm d b => simp [visitRecCore] at h
  | app f a => simp [visitRecCore] at h
  | letE nm t v b => simp [visitRecCore] at h
  | mac mk => simp [visitRecCore] at h
  | mvar i => simp [visitRecCore] at h
  | value v => simp [visitRecCore] at h

theorem noLevels_visitNoConfCore {env : Environment} {V : Expr → Except Err Expr}
    (hV : ∀ x r, noLevels x = true → V x = .ok r → noLevels r = true)
    {fn : Expr} {args : List Expr} {r : Expr}
    (hargs : ∀ x ∈ args, noLevels x = true)
    (h : visitNoConfCore env V fn args = .ok r) : noLevels r = true := by
  cases fn with
  | const cn ls =>
    simp only [visitNoConfCore] at h
    split at h
    · simp at h
    · split at h
      · simp at h
      · split at h
        · split at h
          · simp only [pure_eq_ok, Except.ok.injEq] at h
            subst h
            rfl
          · split at h
            · simp at h
            · rcases hb : V ((consumeLams (freshLoc (argAt args _)) (argAt args _)).2)
                  with e | body'
              · rw [hb] at h; simp at h
              · rw [hb] at h
                simp only [ok_bind, pure_eq_ok, Except.ok.injEq] at h
                subst h
                have hmaj := noLevels_argAt hargs
                  ((env.inductives cn.parent).elim 0 InductiveInfo.nparams +
                    (env.inductives cn.parent).elim 0 InductiveInfo.nindices + 4)
                refine noLevels_addArgs (noLevels_appNeutrals ?_ _) hargs
                refine noLevels_eraseLLT (noLevels_mkLambdaLocs ?_ ?_)
                · exact (noLevels_consumeLams (noLevels_argAt hargs _)).1
                · exact hV _ body'
                    (noLevels_consumeLams (noLevels_argAt hargs _)).2 hb
        · simp at h
  | bvar i => simp [visitNoConfCore] at h
  | fvar i => simp [visitNoConfCore] at h
  | sort u => simp [visitNoConfCore] at h
  | pi nm d b => simp [visitNoConfCore] at h
  | lam nm d b => simp [visitNoConfCore] at h
  | app f a => simp [visitNoConfCore] at h
  | letE nm t v b => simp [visitNoConfCore] at h
  | mac mk => simp [visitNoConfCore] at h
  | mvar i => simp [visitNoConfCore] at h
  | value v => simp [visitNoConfCore] at h

theorem noLevels_visitEqRecCore {V : Expr → Except Err Expr}
    (hV : ∀ x r, noLevels x = true → V x = .ok r → noLevels r = true)
    {args : List Expr} {r : Expr}
    (hargs : ∀ x ∈ args, noLevels x = true)
    (h : visitEqRecCore V args = .ok r) : noLevels r = true := by
  simp only [visitEqRecCore] at h
  split at h
  · simp at h
  · rcases hm : V (argAt args 3) with e | M
    · rw [hm] at h; simp at h
    · rw [hm] at h
      simp only [ok_bind, pure_eq_ok, Except.ok.injEq] at h
      subst h
      exact noLevels_addArgs (hV _ M (noLevels_argAt hargs 3) hm) hargs

theorem noLevels_visitSubtypeTagCore {V : Expr → Except Err Expr}
    (hV : ∀ x r, noLevels x = true → V x = .ok r → noLevels r = true)
    {args : List Expr} {r : Expr}
    (hargs : ∀ x ∈ args, noLevels x = true)
    (h : visitSubtypeTagCore V args = .ok r) : noLevels r = true := by
  simp only [visitSubtypeTagCore] at h
  split at h
  · simp at h
  · rcases hm : V (argAt args 2) with e | M
    · rw [hm] at h; simp at h
    · rw [hm] at h
      simp only [ok_bind, pure_eq_ok, Except.ok.injEq] at h
      subst h
      exact noLevels_addArgs (hV _ M (noLevels_argAt hargs 2) hm) hargs

theorem noLevels_visitSubtypeEltOfCore {V : Expr → Except Err Expr}
    (hV : ∀ x r, noLevels x = true → V x = .ok r → noLevels r = true)
    {args : List Expr} {r : Expr}
    (hargs : ∀ x ∈ args, noLevels x = true)
    (h : visitSubtypeEltOfCore V args = .ok r) : noLevels r = true := by
  simp only [visitSubtypeEltOfCore] at h
  split at h
  · simp at h
  · rcases hm : V (argAt args 2) with e | M
    · rw [hm] at h; simp at h
    · rw [hm] at h
      simp only [ok_bind, pure_eq_ok, Except.ok.injEq] at h
      subst h
      exact noLevels_addArgs (hV _ M (noLevels_argAt hargs 2) hm) hargs

theorem noLevels_visitSubtypeRecCore {V : Expr → Except Err Expr}
    (hV : ∀ x r, noLevels x = true → V x = .ok r → noLevels r = true)
    {args : List Expr} {r : Expr}
    (hargs : ∀ x ∈ args, noLevels x = true)
    (h : visitSubtypeRecCore V args = .ok r) : noLevels r = true := by
  simp only [visitSubtypeRecCore] at h
  split at h
  · simp at h
  · rcases hm : V (argAt args 3) with e | M
    · rw [hm] at h; simp at h
    · rw [hm] at h
      simp only [ok_bind] at h
      rcases hj : V (argAt args 4) with e | J
      · rw [hj] at h; simp at h
      · rw [hj] at h
        simp only [ok_bind, pure_eq_ok, Except.ok.injEq] at h
        subst h
        refine noLevels_addArgs ?_ hargs
        simp only [noLevels, Bool.and_eq_true]
        exact ⟨⟨hV _ M (noLevels_argAt hargs 3) hm, hV _ J (noLevels_argAt hargs 4) hj⟩,
          by rfl⟩

theorem visit_app_lamHead (env : Environment) (fuel : Nat) {f a : Expr}
    {nm : String} {d b : Expr}
    (hfn : (getAppFnArgs (.app f a)).1 = .lam nm d b)
    (hirr : env.irrel (.app f a) = false) :
    visit env (fuel + 1) (.app f a) = visit env fuel (betaReduce (.app f a)) := by
  show (if env.irrel (.app f a) then pure neutralExpr else _) = _
  rw [if_neg (by simp [hirr])]
  rw [show (getAppFnArgs (Expr.app f a)).1 = .lam nm d b from hfn]

theorem visit_app_other (env : Environment) (fuel : Nat) {f a : Expr}
    (hirr : env.irrel (.app f a) = false)
    (hnl : ∀ nm d b, (getAppFnArgs (.app f a)).1 ≠ .lam nm d b)
    (hnc : ∀ n ls, (getAppFnArgs (.app f a)).1 ≠ .const n ls) :
    visit env (fuel + 1) (.app f a) =
      (do
        let fn' ← visit env fuel (getAppFnArgs (.app f a)).1
        let args' ← visitList (fun x => visit env fuel x) (getAppFnArgs (.app f a)).2
        pure (mkAppList fn' args')) := by
  show (if env.irrel (.app f a) then pure neutralExpr else _) = _
  rw [if_neg (by simp [hirr])]
  split
  · rename_i nm d b heq
    exact absurd heq (hnl nm d b)
  · rename_i n ls heq
    exact absurd heq (hnc n ls)
  · rfl

theorem noLevels_visitAppDefault (env : Environment) (fuel : Nat)
    (hV : ∀ x r, noLevels x = true → visit env fuel x = .ok r → noLevels r = true)
    {fnE : Expr} {args : List Expr} {r : Expr}
    (h1 : noLevels fnE = true) (h2 : ∀ x ∈ args, noLevels x = true)
    (h : (do
      let fn' ← visit env fuel fnE
      let args' ← visitList (fun x => visit env fuel x) args
      pure (mkAppList fn' args')) = .ok r) :
    noLevels r = true := by
  rcases hf : visit env fuel fnE with e | fn'
  · rw [hf] at h; simp at h
  · rw [hf] at h
    simp only [ok_bind] at h
    rcases hl : visitList (fun x => visit env fuel x) args with e | args'
    · rw [hl] at h; simp at h
    · rw [hl] at h
      simp only [ok_bind, pure_eq_ok, Except.ok.injEq] at h
      subst h
      exact noLevels_mkAppList (hV _ _ h1 hf)
        (noLevels_visitList (fun x r hx hr => hV x r hx hr) h2 hl)

theorem noLevels_getAppFnArgs {e : Expr} (he : noLevels e = true) :
    noLevels (getAppFnArgs e).1 = true ∧ ∀ x ∈ (getAppFnArgs e).2, noLevels x = true :=
  noLevels_getAppArgsAux he (by simp)

/-- C8 amended: The rewriter itself only ever constructs
level-free constants (it strips the levels of every constant it visits,
and the markers and the `I.cases_on` head it fabricates carry none), but
the extra trailing arguments of equality-cast, no-confusion and subtype
applications are passed through *unrewritten*, so a universe-instantiated
constant inside them survives (see the counterexample).  Hence the
invariant that holds is preservation: if the input contains no constant
carrying universe-level data, neither does the rewriter's output. -/
theorem C8_amended_noLevels_preservation (env : Environment) :
    ∀ (fuel : Nat) (e r : Expr), noLevels e = true → visit env fuel e = .ok r →
      noLevels r = true := by
  intro fuel
  induction fuel with
  | zero =>
    intro e r _ h
    simp [visit] at h
  | succ fuel IH =>
    intro e r he h
    cases e with
    | sort u =>
      simp only [visit, pure_eq_ok, Except.ok.injEq] at h
      rw [← h]; rfl
    | pi nm d b =>
      simp only [visit, pure_eq_ok, Except.ok.injEq] at h
      rw [← h]; rfl
    | mac k =>
      simp only [visit] at h
      split at h
      · simp only [pure_eq_ok, Except.ok.injEq] at h; rw [← h]; rfl
      · split at h
        · simp only [pure_eq_ok, Except.ok.injEq] at h; rw [← h]; rfl
        · split at h
          · simp only [pure_eq_ok, Except.ok.injEq] at h; rw [← h]; rfl
          · simp only [pure_eq_ok, Except.ok.injEq] at h; rw [← h]; exact he
    | bvar i =>
      simp only [visit] at h
      split at h
      · simp only [pure_eq_ok, Except.ok.injEq] at h; rw [← h]; rfl
      · simp only [pure_eq_ok, Except.ok.injEq] at h; rw [← h]; exact he
    | fvar i =>
      simp only [visit] at h
      split at h
      · simp only [pure_eq_ok, Except.ok.injEq] at h; rw [← h]; rfl
      · simp only [pure_eq_ok, Except.ok.injEq] at h; rw [← h]; exact he
    | const n ls =>
      simp only [visit] at h
      split at h
      · simp only [pure_eq_ok, Except.ok.injEq] at h; rw [← h]; rfl
      · simp only [pure_eq_ok, Except.ok.injEq] at h; rw [← h]; rfl
    | mvar i =>
      simp only [visit, pure_eq_ok, Except.ok.injEq] at h
      rw [← h]; exact he
    | value v =>
      simp only [visit, pure_eq_ok, Except.ok.injEq] at h
      rw [← h]; exact he
    | lam nm d b =>
      simp only [visit] at h
      rcases hb : visit env fuel b with e' | b'
      · rw [hb] at h; simp at h
      · rw [hb] at h
        simp only [ok_bind, pure_eq_ok, Except.ok.injEq] at h
        rw [← h]
        simp only [noLevels, Bool.and_eq_true] at he
        exact noLevels_eraseLLT (by simp [noLevels, he.1, IH b b' he.2 hb])
    | letE nm t v b =>
      simp only [visit] at h
      rcases hv : visit env fuel v with e' | v'
      · rw [hv] at h; simp at h
      · rw [hv] at h
        simp only [ok_bind] at h
        rcases hb : visit env fuel b with e' | b'
        · rw [hb] at h; simp at h
        · rw [hb] at h
          simp only [ok_bind, pure_eq_ok, Except.ok.injEq] at h
          rw [← h]
          simp only [noLevels, Bool.and_eq_true] at he
          exact noLevels_eraseLLT (by
            simp [noLevels, he.1.1, IH v v' he.1.2 hv, IH b b' he.2 hb])
    | app f a =>
      obtain ⟨h1, h2⟩ := noLevels_getAppFnArgs he
      rcases hia : env.irrel (.app f a) with _ | _
      · cases hfn : (getAppFnArgs (Expr.app f a)).1 with
        | bvar i =>
          rw [visit_app_other env fuel hia (by rw [hfn]; simp) (by rw [hfn]; simp)] at h
          exact noLevels_visitAppDefault env fuel IH h1 h2 h
        | fvar i =>
          rw [visit_app_other env fuel hia (by rw [hfn]; simp) (by rw [hfn]; simp)] at h
          exact noLevels_visitAppDefault env fuel IH h1 h2 h
        | const n ls =>
          rw [visit_app_const env fuel (e := .app f a) rfl hfn hia] at h
          rw [hfn] at h1
          split at h
          · exact noLevels_visitEqRecCore IH h2 h
          · split at h
            · exact noLevels_visitSubtypeRecCore IH h2 h
            · split at h
              · exact noLevels_visitCasesCore IH h1 h2 h
              · split at h
                · exact noLevels_visitRecCore IH h2 h
                · split at h
                  · exact noLevels_visitNoConfCore IH h2 h
                  · split at h
                    · exact noLevels_visitSubtypeTagCore IH h2 h
                    · split at h
                      · exact noLevels_visitSubtypeEltOfCore IH h2 h
                      · exact noLevels_visitAppDefault env fuel IH
                          (by rw [hfn]; exact h1) h2 h
        | sort u =>
          rw [visit_app_other env fuel hia (by rw [hfn]; simp) (by rw [hfn]; simp)] at h
          exact noLevels_visitAppDefault env fuel IH h1 h2 h
        | pi nmv dv bv =>
          rw [visit_app_other env fuel hia (by rw [hfn]; simp) (by rw [hfn]; simp)] at h
          exact noLevels_visitAppDefault env fuel IH h1 h2 h
        | lam nmv dv bv =>
          rw [visit_app_lamHead env fuel hfn hia] at h
          exact IH _ _ (noLevels_betaReduce he) h
        | app g b' =>
          rw [visit_app_other env fuel hia (by rw [hfn]; simp) (by rw [hfn]; simp)] at h
          exact noLevels_visitAppDefault env fuel IH h1 h2 h
        | letE nmv tv vv bv =>
          rw [visit_app_other env fuel hia (by rw [hfn]; simp) (by rw [hfn]; simp)] at h
          exact noLevels_visitAppDefault env fuel IH h1 h2 h
        | mac mk =>
          rw [visit_app_other env fuel hia (by rw [hfn]; simp) (by rw [hfn]; simp)] at h
          exact noLevels_visitAppDefault env fuel IH h1 h2 h
        | mvar i =>
          rw [visit_app_other env fuel hia (by rw [hfn]; simp) (by rw [hfn]; simp)] at h
          exact noLevels_visitAppDefault env fuel IH h1 h2 h
        | value v =>
          rw [visit_app_other env fuel hia (by rw [hfn]; simp) (by rw [hfn]; simp)] at h
          exact noLevels_visitAppDefault env fuel IH h1 h2 h
      · have : visit env (fuel + 1) (.app f a) = pure neutralExpr := by
          show (if env.irrel (.app f a) then pure neutralExpr else _) = _
          rw [if_pos (by simp [hia])]
        rw [this] at h
        simp only [pure_eq_ok, Except.ok.injEq] at h
        rw [← h]; rfl

theorem C8_amended_noLevels_preservation_witness :
    noLevels (.app (.const (.str .anonymous ("f")) []) neutralExpr) = true :=
  C8_amended_noLevels_preservation envT 2
    (.app (.const (.str .anonymous ("f")) []) (.sort .zero))
    (.app (.const (.str .anonymous ("f")) []) neutralExpr)
    (by decide) (by rfl)

/-- The Application/Lambda/Let nesting skeleton of a term.  Binder domain
and let type annotations, and everything below any other node kind
(leaves, sorts, function types), are not part of the skeleton. -/
inductive Shape where
  | leaf : Shape
  | app : Shape → Shape → Shape
  | lam : Shape → Shape
  | letE : Shape → Shape → Shape
deriving DecidableEq

def shape : Expr → Shape
  | .app f a => .app (shape f) (shape a)
  | .lam _ _ b => .lam (shape b)
  | .letE _ _ v b => .letE (shape v) (shape b)
  | _ => .leaf

/-- C9 counterexample: A beta-redex — an application whose head is
a lambda, containing no eliminator application at all — is beta-reduced
and revisited, so the output loses the Application node: its
Application/Lambda/Let nesting structure differs from the input's, which
the claim does not allow (no Sort/Pi subterm or irrelevant-leaf
replacement accounts for it). -/
theorem C9_counterexample_beta_redex_changes_shape :
    visit envT 2 (.app (.lam ("x") (.sort .zero) (.bvar 0))
      (.const (.str .anonymous ("c")) []))
      = .ok (.const (.str .anonymous ("c")) []) ∧
    shape (.const (.str .anonymous ("c")) [])
      ≠ shape (.app (.lam ("x") (.sort .zero) (.bvar 0))
          (.const (.str .anonymous ("c")) [])) :=
  ⟨rfl, by decide⟩

/-- Heads that make `visit_app` leave the default traversal: a lambda
(beta-reduction) or one of the special-cased eliminator/subtype
constants. -/
def specialHead (env : Environment) : Expr → Bool
  | .lam _ _ _ => true
  | .const n _ =>
    n = eqRecName || n = subtypeRecName || isCasesOnRec env n || isElimRule env n ||
      isNoConfusion env n || n = subtypeTagName || n = subtypeEltOfName
  | _ => false

/-- No application subterm is beta-redex-headed, eliminator-headed, or
classified irrelevant (binder domains, let types, and the bodies of
function types are not constrained: the rewriter never visits them). -/
def noElimBeta (env : Environment) : Expr → Bool
  | .app f a =>
    !specialHead env (getAppFnArgs (.app f a)).1 && !env.irrel (.app f a) &&
      noElimBeta env f && noElimBeta env a
  | .lam _ _ b => noElimBeta env b
  | .letE _ _ v b => noElimBeta env v && noElimBeta env b
  | _ => true

theorem shape_eraseLLT : ∀ (e : Expr), shape (eraseLLT e) = shape e := by
  intro e
  induction e with
  | lam nm t b _ ihb => simp [eraseLLT, shape, ihb]
  | letE nm t v b _ _ ihb => simp [eraseLLT, shape, ihb]
  | _ => rfl

theorem shape_mkAppList : ∀ (as : List Expr) (f : Expr),
    shape (mkAppList f as) = (as.map shape).foldl Shape.app (shape f) := by
  intro as
  induction as with
  | nil => intro f; rfl
  | cons a as ih =>
    intro f
    show shape (mkAppList (.app f a) as) = _
    rw [ih]
    rfl

theorem noElimBeta_app {env : Environment} {f a : Expr}
    (h : noElimBeta env (.app f a) = true) :
    specialHead env (getAppFnArgs (.app f a)).1 = false ∧
      env.irrel (.app f a) = false ∧
      noElimBeta env f = true ∧ noElimBeta env a = true := by
  have h' := h
  simp only [noElimBeta, Bool.and_eq_true, Bool.not_eq_true'] at h'
  exact ⟨h'.1.1.1, h'.1.1.2, h'.1.2, h'.2⟩

theorem noElimBeta_getAppArgsAux {env : Environment} :
    ∀ {e : Expr} {acc : List Expr}, noElimBeta env e = true →
      (∀ x ∈ acc, noElimBeta env x = true) →
      noElimBeta env (getAppArgsAux e acc).1 = true ∧
        ∀ x ∈ (getAppArgsAux e acc).2, noElimBeta env x = true := by
  intro e
  induction e with
  | app f a ihf _ =>
    intro acc he hacc
    obtain ⟨_, _, hf, ha⟩ := noElimBeta_app he
    exact ihf hf (by
      intro x hx
      rcases List.mem_cons.mp hx with h | h
      · rw [h]; exact ha
      · exact hacc x h)
  | _ =>
    intro acc he hacc
    exact ⟨he, hacc⟩

theorem noElimBeta_getAppFnArgs {env : Environment} {e : Expr}
    (he : noElimBeta env e = true) :
    noElimBeta env (getAppFnArgs e).1 = true ∧
      ∀ x ∈ (getAppFnArgs e).2, noElimBeta env x = true :=
  noElimBeta_getAppArgsAux he (by simp)

theorem shape_visitList {env : Environment} {V : Expr → Except Err Expr}
    (hV : ∀ x r, noElimBeta env x = true → V x = .ok r → shape r = shape x) :
    ∀ {l l' : List Expr}, (∀ x ∈ l, noElimBeta env x = true) → visitList V l = .ok l' →
      l'.map shape = l.map shape := by
  intro l
  induction l with
  | nil =>
    intro l' _ h
    simp only [visitList, pure_eq_ok, Except.ok.injEq] at h
    subst h
    rfl
  | cons x xs ih =>
    intro l' hl h
    simp only [visitList] at h
    rcases hx : V x with e | y
    · rw [hx] at h; simp at h
    · rw [hx] at h
      simp only [ok_bind] at h
      rcases hxs : visitList V xs with e | ys
      · rw [hxs] at h; simp at h
      · rw [hxs] at h
        simp only [ok_bind, pure_eq_ok, Except.ok.injEq] at h
        subst h
        simp only [List.map_cons]
        rw [hV x y (hl x (by simp)) hx, ih (fun w hw => hl w (by simp [hw])) hxs]

theorem shape_visitAppDefault (env : Environment) (fuel : Nat)
    (hV : ∀ x r, noElimBeta env x = true → visit env fuel x = .ok r → shape r = shape x)
    {f a r : Expr}
    (he : noElimBeta env (.app f a) = true)
    (h : (do
      let fn' ← visit env fuel (getAppFnArgs (.app f a)).1
      let args' ← visitList (fun x => visit env fuel x) (getAppFnArgs (.app f a)).2
      pure (mkAppList fn' args')) = .ok r) :
    shape r = shape (.app f a) := by
  obtain ⟨hhead, hargs⟩ := noElimBeta_getAppFnArgs he
  rcases hf : visit env fuel (getAppFnArgs (.app f a)).1 with e | fn'
  · rw [hf] at h; simp at h
  · rw [hf] at h
    simp only [ok_bind] at h
    rcases hl : visitList (fun x => visit env fuel x) (getAppFnArgs (.app f a)).2
        with e | args'
    · rw [hl] at h; simp at h
    · rw [hl] at h
      simp only [ok_bind, pure_eq_ok, Except.ok.injEq] at h
      subst h
      rw [shape_mkAppList]
      rw [shape_visitList (fun x r hx hr => hV x r hx hr) hargs hl]
      rw [hV _ _ hhead hf]
      rw [← shape_mkAppList, mkAppList_getAppFnArgs]

/-- C9 amended: Shape preservation holds once beta-redexes and
irrelevant applications are also excluded: for any term in which no
application subterm is lambda-headed, eliminator/subtype-headed, or
classified irrelevant (`noElimBeta`), the erased output has exactly the
same Application/Lambda/Let nesting skeleton as the input — Sort and Pi
subterms and irrelevant leaves become the neutral marker (a leaf of the
skeleton) and binder/let annotations are erased, none of which is part of
the skeleton.  Without the extra exclusions the original claim fails: a
lambda-headed application is beta-reduced away (see the counterexample),
and a whole application classified irrelevant collapses to one leaf. -/
theorem C9_amended_shape_preservation (env : Environment) :
    ∀ (fuel : Nat) (e r : Expr), noElimBeta env e = true → visit env fuel e = .ok r →
      shape r = shape e := by
  intro fuel
  induction fuel with
  | zero =>
    intro e r _ h
    simp [visit] at h
  | succ fuel IH =>
    intro e r he h
    cases e with
    | sort u =>
      simp only [visit, pure_eq_ok, Except.ok.injEq] at h
      rw [← h]; rfl
    | pi nm d b =>
      simp only [visit, pure_eq_ok, Except.ok.injEq] at h
      rw [← h]; rfl
    | mac k =>
      simp only [visit] at h
      split at h
      · simp only [pure_eq_ok, Except.ok.injEq] at h; subst h; rfl
      · split at h
        · simp only [pure_eq_ok, Except.ok.injEq] at h; subst h; rfl
        · split at h
          · simp only [pure_eq_ok, Except.ok.injEq] at h; subst h; rfl
          · simp only [pure_eq_ok, Except.ok.injEq] at h; subst h; rfl
    | bvar i =>
      simp only [visit] at h
      split at h <;> (simp only [pure_eq_ok, Except.ok.injEq] at h; subst h; rfl)
    | fvar i =>
      simp only [visit] at h
      split at h <;> (simp only [pure_eq_ok, Except.ok.injEq] at h; subst h; rfl)
    | const n ls =>
      simp only [visit] at h
      split at h <;> (simp only [pure_eq_ok, Except.ok.injEq] at h; subst h; rfl)
    | mvar i =>
      simp only [visit, pure_eq_ok, Except.ok.injEq] at h
      rw [← h]
    | value v =>
      simp only [visit, pure_eq_ok, Except.ok.injEq] at h
      rw [← h]
    | lam nm d b =>
      simp only [visit] at h
      rcases hb : visit env fuel b with e' | b'
      · rw [hb] at h; simp at h
      · rw [hb] at h
        simp only [ok_bind, pure_eq_ok, Except.ok.injEq] at h
        rw [← h, shape_eraseLLT]
        show Shape.lam (shape b') = Shape.lam (shape b)
        rw [IH b b' he hb]
    | letE nm t v b =>
      simp only [visit] at h
      simp only [noElimBeta, Bool.and_eq_true] at he
      rcases hv : visit env fuel v with e' | v'
      · rw [hv] at h; simp at h
      · rw [hv] at h
        simp only [ok_bind] at h
        rcases hb : visit env fuel b with e' | b'
        · rw [hb] at h; simp at h
        · rw [hb] at h
          simp only [ok_bind, pure_eq_ok, Except.ok.injEq] at h
          rw [← h, shape_eraseLLT]
          show Shape.letE (shape v') (shape b') = Shape.letE (shape v) (shape b)
          rw [IH v v' he.1 hv, IH b b' he.2 hb]
    | app f a =>
      obtain ⟨hsp, hirr, _, _⟩ := noElimBeta_app he
      cases hfn : (getAppFnArgs (Expr.app f a)).1 with
      | const n ls =>
        rw [hfn] at hsp
        simp only [specialHead, Bool.or_eq_false_iff, decide_eq_false_iff_not] at hsp
        obtain ⟨⟨⟨⟨⟨⟨h1', h2'⟩, h3'⟩, h4'⟩, h5'⟩, h6'⟩, h7'⟩ := hsp
        rw [visit_app_const env fuel (e := .app f a) rfl hfn hirr] at h
        rw [if_neg h1', if_neg h2', if_neg (by simp [h3']), if_neg (by simp [h4']),
          if_neg (by simp [h5']), if_neg h6', if_neg h7'] at h
        exact shape_visitAppDefault env fuel IH he h
      | lam nmv dv bv =>
        rw [hfn] at hsp
        simp [specialHead] at hsp
      | bvar i =>
        rw [visit_app_other env fuel hirr (by rw [hfn]; simp) (by rw [hfn]; simp)] at h
        exact shape_visitAppDefault env fuel IH he h
      | fvar i =>
        rw [visit_app_other env fuel hirr (by rw [hfn]; simp) (by rw [hfn]; simp)] at h
        exact shape_visitAppDefault env fuel IH he h
      | sort u =>
        rw [visit_app_other env fuel hirr (by rw [hfn]; simp) (by rw [hfn]; simp)] at h
        exact shape_visitAppDefault env fuel IH he h
      | pi nmv dv bv =>
        rw [visit_app_other env fuel hirr (by rw [hfn]; simp) (by rw [hfn]; simp)] at h
        exact shape_visitAppDefault env fuel IH he h
      | app g b' =>
        rw [visit_app_other env fuel hirr (by rw [hfn]; simp) (by rw [hfn]; simp)] at h
        exact shape_visitAppDefault env fuel IH he h
      | letE nmv tv vv bv =>
        rw [visit_app_other env fuel hirr (by rw [hfn]; simp) (by rw [hfn]; simp)] at h
        exact shape_visitAppDefault env fuel IH he h
      | mac mk =>
        rw [visit_app_other env fuel hirr (by rw [hfn]; simp) (by rw [hfn]; simp)] at h
        exact shape_visitAppDefault env fuel IH he h
      | mvar i =>
        rw [visit_app_other env fuel hirr (by rw [hfn]; simp) (by rw [hfn]; simp)] at h
        exact shape_visitAppDefault env fuel IH he h
      | value v =>
        rw [visit_app_other env fuel hirr (by rw [hfn]; simp) (by rw [hfn]; simp)] at h
        exact shape_visitAppDefault env fuel IH he h

theorem C9_amended_shape_preservation_witness :
    shape (.app (.const (.str .anonymous ("g")) []) neutralExpr)
      = shape (.app (.const (.str .anonymous ("g")) [.zero]) (.sort .zero)) :=
  C9_amended_shape_preservation envT 2
    (.app (.const (.str .anonymous ("g")) [.zero]) (.sort .zero))
    (.app (.const (.str .anonymous ("g")) []) neutralExpr)
    (by decide) (by rfl)
